import Mathlib

/-!
Verification of the vote-tally program `tally_votes.py` (Tildes CGA voting).

Shallow embedding conventions:
* Python `str` values are modelled as `String` (registry keys, canonical
  titles, messages) or as `List Char` (the raw comment text scanned by the
  vote extractor), whichever makes the corresponding source function most
  direct to state.
* Python `dict` / `collections.Counter` objects are modelled as insertion
  ordered association lists: a lookup returns the first binding, an
  in-place `d[k] += v` updates the existing binding in place, and a fresh
  key is appended at the end, exactly the observable behaviour of a Python
  dict.
* The two Unicode library calls the source makes, `unicodedata.normalize
  ("NFC", s)` and `str.lower()`, are kept as explicit function parameters
  (`nfc`, `lower`); theorems that depend on them state, as hypotheses,
  only properties the Unicode standard guarantees for them.
-/

/-- Python's whitespace set: the characters matched by `\s` in a `re`
pattern over `str` and stripped by `str.strip()` (Unicode whitespace). -/
def pyIsSpace (c : Char) : Bool :=
  c = ' ' ∨ c = '\t' ∨ c = '\n' ∨ c = '\r' ∨
  c = Char.ofNat 0x0b ∨ c = Char.ofNat 0x0c ∨
  c = Char.ofNat 0x1c ∨ c = Char.ofNat 0x1d ∨
  c = Char.ofNat 0x1e ∨ c = Char.ofNat 0x1f ∨
  c = Char.ofNat 0x85 ∨ c = Char.ofNat 0xa0 ∨
  c = Char.ofNat 0x1680 ∨
  (Char.ofNat 0x2000 ≤ c ∧ c ≤ Char.ofNat 0x200a) ∨
  c = Char.ofNat 0x2028 ∨ c = Char.ofNat 0x2029 ∨
  c = Char.ofNat 0x202f ∨ c = Char.ofNat 0x205f ∨
  c = Char.ofNat 0x3000

/-- ASCII decimal digit, the characters matched by `\d` in the vote regex
(we restrict the model to the ASCII digits; the claims under study only
involve ASCII digit sequences). -/
def isDigitC (c : Char) : Bool := '0' ≤ c ∧ c ≤ '9'

/-- Value of one ASCII digit. -/
def digitVal (c : Char) : Nat := c.toNat - 48

/-- `int(...)` applied to the digit capture of the vote regex: base-10
value of a digit run. -/
def digitsToNat (ds : List Char) : Nat := ds.foldl (fun a c => 10 * a + digitVal c) 0

/-- The character replacement table of `fold_punct` (tally_votes.py lines
50-55): curly quotes/apostrophes/dashes/non-breaking space to ASCII.  The
source applies `str.replace` once per table entry; every entry maps one
character to one character and no entry's output is another entry's input,
so the sequential replaces equal one simultaneous character map. -/
def replChar (c : Char) : Char :=
  if c = Char.ofNat 0x2019 then '\'' else
  if c = Char.ofNat 0x2018 then '\'' else
  if c = Char.ofNat 0x2032 then '\'' else
  if c = Char.ofNat 0x201C then '"' else
  if c = Char.ofNat 0x201D then '"' else
  if c = Char.ofNat 0x2013 then '-' else
  if c = Char.ofNat 0x2014 then '-' else
  if c = Char.ofNat 0x2212 then '-' else
  if c = Char.ofNat 0x00A0 then ' ' else c

/-- `re.sub(r"\s+", " ", s)` (tally_votes.py line 58): collapse every
maximal whitespace run to a single space.  The Boolean flag records
whether the previous character was whitespace (i.e. we are inside a run
whose single replacement space has already been emitted). -/
def collapseAux : Bool → List Char → List Char
  | _, [] => []
  | prevWs, c :: rest =>
    if pyIsSpace c then
      if prevWs then collapseAux true rest else ' ' :: collapseAux true rest
    else c :: collapseAux false rest

/-- Whitespace collapsing as called in `fold_punct`. -/
def collapseWs (l : List Char) : List Char := collapseAux false l

/-- Remove trailing whitespace (the right half of `str.strip()`). -/
def dropTrailingWs : List Char → List Char
  | [] => []
  | c :: rest =>
    match dropTrailingWs rest with
    | [] => if pyIsSpace c then [] else [c]
    | r => c :: r

/-- `str.strip()`: remove leading and trailing whitespace. -/
def pyStrip (l : List Char) : List Char := dropTrailingWs (l.dropWhile pyIsSpace)

/-- `fold_punct` (tally_votes.py lines 49-59): replacement table, then
whitespace collapsing, then strip. -/
def fold_punct (l : List Char) : List Char := pyStrip (collapseWs (l.map replChar))

/-- `normalize_unicode` (tally_votes.py lines 46-47): NFC composition then
strip; the NFC library call is the parameter `nfc`. -/
def normalize_unicode (nfc : List Char → List Char) (l : List Char) : List Char :=
  pyStrip (nfc l)

/-- `norm_key` (tally_votes.py lines 61-62):
`fold_punct(normalize_unicode(s)).lower()`; the `str.lower()` library call
is the parameter `lower`. -/
def norm_key (nfc lower : List Char → List Char) (l : List Char) : List Char :=
  lower (fold_punct (normalize_unicode nfc l))

example : fold_punct (" a  b ".data) = "a b".data := by decide
example : norm_key id id ("  x   y ".data) = "x y".data := by decide

/-!
Vote extractor.

`VOTE_PAIR_REGEX = r"(?P<title>.+?)\s*\((?P<points>\d+)\)(?=(?:\s+|$))"`
(tally_votes.py line 42), scanned with `finditer` over the whole comment
body (`find_vote_pairs`, lines 244-250).  The model mirrors the regex
engine's behaviour on this pattern: `finditer` yields non-overlapping
matches, each being the leftmost-starting match, with the non-greedy
`.+?` title taking the shortest extent that lets the rest of the pattern
match; `.` does not match a newline; the greedy `\s*` and `\d+` consume
maximal runs (the following mandatory `(` resp. `)` is neither whitespace
nor a digit, so no backtracking into the runs is possible); the lookahead
requires end-of-text or a whitespace character after the closing paren
(a bare `$` position is subsumed: an end-of-string-before-final-newline
position is preceded by the regex only via `\s+` since `\n` is `\s`).
-/

/-- Match `\s*\((?P<points>\d+)\)(?=(?:\s+|$))` at the start of `l`;
returns the points value and the number of characters consumed (the
lookahead consumes nothing). -/
def tailMatch (l : List Char) : Option (Nat × Nat) :=
  let wn := (l.takeWhile pyIsSpace).length
  match l.drop wn with
  | '(' :: r1 =>
    let ds := r1.takeWhile isDigitC
    if ds.isEmpty then none
    else
      match r1.drop ds.length with
      | ')' :: rest =>
        match rest with
        | [] => some (digitsToNat ds, wn + 1 + ds.length + 1)
        | c2 :: _ =>
          if pyIsSpace c2 then some (digitsToNat ds, wn + 1 + ds.length + 1) else none
      | _ => none
  | _ => none

/-- Attempt a match whose title starts at the current position: grow the
non-greedy title one character at a time (never across a newline) and
test the rest of the pattern after each character.  Returns the captured
title, the points, and the remainder of the text after the match. -/
def matchHere (acc : List Char) : List Char → Option (List Char × Nat × List Char)
  | [] => none
  | c :: rest =>
    if c = '\n' then none
    else
      match tailMatch rest with
      | some (pts, consumed) => some (acc ++ [c], pts, rest.drop consumed)
      | none => matchHere (acc ++ [c]) rest

/-- `finditer` loop with explicit fuel (one unit per character position):
try a match at the current position; on success continue after the match,
on failure advance one character. -/
def scanPairsF : Nat → List Char → List (List Char × Nat)
  | 0, _ => []
  | _ + 1, [] => []
  | n + 1, c :: rest =>
    match matchHere [] (c :: rest) with
    | some (t, p, rem) => (t, p) :: scanPairsF n rem
    | none => scanPairsF n rest

/-- All raw `(title, points)` matches of the vote regex, in text order. -/
def scanPairs (l : List Char) : List (List Char × Nat) := scanPairsF l.length l

/-- `find_vote_pairs` (tally_votes.py lines 244-250): every regex match,
with `normalize_unicode` (NFC + strip) applied to the captured title. -/
def find_vote_pairs (nfc : List Char → List Char) (text : List Char) :
    List (List Char × Nat) :=
  (scanPairs text).map (fun tp => (normalize_unicode nfc tp.1, tp.2))

example : find_vote_pairs id ("Foo (Bar) (2)".data) = [("Foo (Bar)".data, 2)] := by decide
example : find_vote_pairs id ("TGG (5) Other Thing (3)".data) =
    [("TGG".data, 5), ("Other Thing".data, 3)] := by decide
example : find_vote_pairs id ("Foo\n(2)".data) = [("Foo".data, 2)] := by decide
example : find_vote_pairs id ("A\nB (2)".data) = [("B".data, 2)] := by decide
example : find_vote_pairs id ("Foo (2)x".data) = [] := by decide

/-!
Association lists modelling Python dicts / Counters: lookup returns the
first binding; `d[k] += v` updates the first binding in place; a fresh
key is appended at the end (dict insertion order).
-/

/-- Dict lookup `d.get(k)`. -/
def alGet {α : Type} : List (String × α) → String → Option α
  | [], _ => none
  | (a, b) :: rest, k => if a = k then some b else alGet rest k

/-- Dict lookup with default, `d.get(k, dflt)`. -/
def alGetD {α : Type} (m : List (String × α)) (k : String) (dflt : α) : α :=
  (alGet m k).getD dflt

/-- Counter update `d[k] += v` (inserting the key at the end if absent). -/
def alAdd {α : Type} [Add α] : List (String × α) → String → α → List (String × α)
  | [], k, v => [(k, v)]
  | (a, b) :: rest, k, v =>
    if a = k then (a, b + v) :: rest else (a, b) :: alAdd rest k v

/-!
Registry construction (tally_votes.py lines 66-76 and 118-157).
-/

/-- `key.rstrip("!?.")`: Python removes the entire maximal trailing run of
characters drawn from the set, not just one character. -/
def rstrip_punct (s : String) : String :=
  ⟨(s.data.reverse.dropWhile (fun c => c = '!' ∨ c = '?' ∨ c = '.')).reverse⟩

/-- The candidate keys iterated by `for k in {key, key.rstrip("!?.")}`
(line 67).  Python iterates a two-element set in unspecified order; the
two keys are distinct strings, so the resulting mapper does not depend on
that order and we fix one. -/
def candidate_keys (key : String) : List String :=
  if rstrip_punct key = key then [key] else [key, rstrip_punct key]

/-- State threaded through registry construction: the key-to-canonical
mapper, the set of already-warned collision triples, and the list of
collision warnings actually printed (the observable diagnostic output). -/
structure RegState where
  mapper : List (String × String)
  warnset : List (String × String × String)
  log : List (String × String × String)
deriving DecidableEq

/-- Body of the loop in `_add_key_with_variants` (lines 68-76) for a
single candidate key `k`: skip empty keys; on a collision with a
different canonical title leave the mapper unchanged and warn (once per
distinct triple, only with `debug`); otherwise `mapper.setdefault(k,
canonical)`. -/
def add_one_key (canonical : String) (dbg : Bool) (st : RegState) (k : String) : RegState :=
  if k = "" then st
  else
    match alGet st.mapper k with
    | some prev =>
      if prev ≠ "" ∧ prev ≠ canonical then
        if dbg ∧ (k, prev, canonical) ∉ st.warnset then
          { st with warnset := st.warnset ++ [(k, prev, canonical)],
                    log := st.log ++ [(k, prev, canonical)] }
        else st
      else st
    | none => { st with mapper := st.mapper ++ [(k, canonical)] }

/-- `_add_key_with_variants` (tally_votes.py lines 66-76). -/
def add_key_with_variants (st : RegState) (key canonical : String) (dbg : Bool) : RegState :=
  (candidate_keys key).foldl (add_one_key canonical dbg) st

/-- A whole sequence of `_add_key_with_variants` calls, as issued while
`parse_games_file` walks the rows (one call per canonical title, alias,
and "missing The" variant); each op is `(key, canonical, debug)`. -/
def register_all (st : RegState) (ops : List (String × String × Bool)) : RegState :=
  ops.foldl (fun s op => add_key_with_variants s op.1 op.2.1 op.2.2) st

/-!
Rollover parsing (tally_votes.py lines 146-157).
-/

/-- Python `int(str)` on an already-stripped string: an optional sign
followed by a non-empty ASCII digit run (Python additionally allows
underscores between digits and other Unicode decimal digits; the claims
under study only involve plain ASCII integer literals).  Note that a
leading `-` is accepted: `int("-3") == -3`. -/
def py_int (s : String) : Option Int :=
  match s.data with
  | '-' :: ds =>
    if ds ≠ [] ∧ ds.all isDigitC then some (-(digitsToNat ds : Int)) else none
  | '+' :: ds =>
    if ds ≠ [] ∧ ds.all isDigitC then some ((digitsToNat ds : Int)) else none
  | ds =>
    if ds ≠ [] ∧ ds.all isDigitC then some ((digitsToNat ds : Int)) else none

/-- Rollover points read from one registry row (lines 146-155): missing
cell or blank cell gives 0; `int(raw)` on the stripped cell, with a
`ValueError` (non-integer) giving 0. -/
def row_rollover (cell : Option String) : Int :=
  match cell with
  | none => 0
  | some raw =>
    let r : String := ⟨pyStrip raw.data⟩
    if r = "" then 0 else (py_int r).getD 0

/-- Accumulation of one row's rollover into the seeds dict (lines
156-157): `if pts: rollovers[canonical] += pts`. -/
def add_rollover (seeds : List (String × Int)) (title : String) (pts : Int) :
    List (String × Int) :=
  if pts = 0 then seeds else alAdd seeds title pts

/-- The seeds dict produced by the rollover-handling part of
`parse_games_file` over a list of rows, each row modelled as its
canonical title together with its (possibly missing) rollover cell. -/
def rollovers_of_rows (rows : List (String × Option String)) : List (String × Int) :=
  rows.foldl (fun seeds row => add_rollover seeds row.1 (row_rollover row.2)) []

example : rollovers_of_rows [("G", some "3"), ("G", some "2")] = [("G", 5)] := by decide
example : rollovers_of_rows [("G", some "abc")] = [] := by decide
example : rollovers_of_rows [("G", some "-3")] = [("G", -3)] := by decide

/-!
Ballot resolution and validation (tally_votes.py lines 252-274) and the
main tally loop (lines 338-392).  Titles, keys and messages are `String`s
here; the key-normalisation function `norm_key` applied to a raw title is
abstracted as the parameter `nk : String → String` (it is
`norm_key` above, transported to `String`, with the two Unicode library
calls inside it).
-/

/-- `parse_ballot_pairs` (lines 252-264): resolve each extracted pair via
the registry; hits accumulate into the `per_game` Counter (insertion
order, duplicates summed), misses append the original pair to `ignored`. -/
def parse_ballot_pairs (nk : String → String) (k2c : List (String × String))
    (pairs : List (String × Nat)) : List (String × Nat) × List (String × Nat) :=
  pairs.foldl
    (fun acc tp =>
      match alGet k2c (nk tp.1) with
      | some canonical => (alAdd acc.1 canonical tp.2, acc.2)
      | none => (acc.1, acc.2 ++ [tp]))
    ([], [])

/-- `validate_ballot` (lines 266-274): the total-points rule and the
per-game rule, independently checked, both appended to `reasons`. -/
def validate_ballot (pg : List (String × Nat)) : Bool × List String :=
  let total := (pg.map (fun tp => tp.2)).sum
  let r1 : List String :=
    if total > 20 then ["Total points " ++ toString total ++ " > 20"] else []
  let over5 := pg.filter (fun tp => tp.2 > 5)
  let over5s := over5.map (fun tp => tp.1 ++ " (" ++ toString tp.2 ++ ")")
  let r2 : List String :=
    if over5s.isEmpty then []
    else ["Per-game limit exceeded: " ++ String.intercalate ", " over5s]
  let reasons := r1 ++ r2
  (reasons.isEmpty, reasons)

/-- Mutable state of the aggregation loop in `main` (lines 338-346). -/
structure TallyState where
  totals : List (String × Int)
  invalidLog : List String
  ignoredByUser : List (String × List (String × Nat))
  authors : List String
  ballotsSeen : Nat
  validBallots : Nat
  invalidBallots : Nat
  ignoredTotal : Nat
deriving DecidableEq

/-- Initial state: `game_totals = Counter(rollovers)` seeds the totals;
everything else empty/zero. -/
def initState (seeds : List (String × Int)) : TallyState :=
  { totals := seeds, invalidLog := [], ignoredByUser := [], authors := [],
    ballotsSeen := 0, validBallots := 0, invalidBallots := 0, ignoredTotal := 0 }

/-- Append ignored pairs under a user key
(`ignored_by_user[user].extend(ignored)` on a `defaultdict(list)`). -/
def addIgnored (m : List (String × List (String × Nat))) (user : String)
    (ign : List (String × Nat)) : List (String × List (String × Nat)) :=
  match m with
  | [] => [(user, ign)]
  | (a, b) :: rest =>
    if a = user then (a, b ++ ign) :: rest else (a, b) :: addIgnored rest user ign

/-- Body of the loop over top-level ballots in `main` (lines 348-379):
count the ballot and its author, resolve the pairs, record ignored pairs,
skip the ballot when both `per_game` and `ignored` are empty, otherwise
validate; an invalid ballot is logged, a valid one is added into the
totals. -/
def processComment (nk : String → String) (k2c : List (String × String))
    (st : TallyState) (user : String) (pairs : List (String × Nat)) : TallyState :=
  let st1 : TallyState :=
    { st with ballotsSeen := st.ballotsSeen + 1,
              authors := if user ∈ st.authors then st.authors else st.authors ++ [user] }
  let pr := parse_ballot_pairs nk k2c pairs
  let st2 : TallyState :=
    { st1 with ignoredByUser :=
                 if pr.2.isEmpty then st1.ignoredByUser
                 else addIgnored st1.ignoredByUser user pr.2,
               ignoredTotal := st1.ignoredTotal + pr.2.length }
  if pr.1.isEmpty ∧ pr.2.isEmpty then st2
  else
    let v := validate_ballot pr.1
    if v.1 = false then
      { st2 with invalidBallots := st2.invalidBallots + 1,
                 invalidLog := st2.invalidLog ++
                   [user ++ ": " ++ String.intercalate "; " v.2] }
    else
      { st2 with validBallots := st2.validBallots + 1,
                 totals := pr.1.foldl (fun m tp => alAdd m tp.1 (tp.2 : Int)) st2.totals }

/-- The whole aggregation loop over the yielded top-level ballots, each
given as `(author, extracted pairs)`. -/
def runLoop (nk : String → String) (k2c : List (String × String))
    (st : TallyState) (comments : List (String × List (String × Nat))) : TallyState :=
  comments.foldl (fun s c => processComment nk k2c s c.1 c.2) st

/-!
Report output (tally_votes.py lines 382-392): one row per allowed
title, sorted by `key=lambda x: (-x[1], x[0].lower())` with Python's
stable sort.  The `str.lower()` in the sort key is modelled by
`ascii_lower` (ASCII case folding, identity beyond ASCII), which agrees
with Python on every string appearing in the claims.
-/

/-- ASCII lower-casing of one character. -/
def ascii_lower_char (c : Char) : Char :=
  if 'A' ≤ c ∧ c ≤ 'Z' then Char.ofNat (c.toNat + 32) else c

/-- ASCII lower-casing of a string (`x[0].lower()` in the sort key). -/
def ascii_lower (s : String) : String := ⟨s.data.map ascii_lower_char⟩

/-- Python string comparison `<`: lexicographic by code point. -/
def listLtC : List Char → List Char → Bool
  | [], [] => false
  | [], _ :: _ => true
  | _ :: _, [] => false
  | a :: as, b :: bs =>
    if a.toNat < b.toNat then true
    else if b.toNat < a.toNat then false
    else listLtC as bs

/-- Python string comparison on `String`. -/
def strLtB (a b : String) : Bool := listLtC a.data b.data

/-- The sort key `(-x[1], x[0].lower())` of a report row. -/
def rowKey (r : String × Int) : Int × String := (-r.2, ascii_lower r.1)

/-- Strict comparison of two rows by their sort keys (lexicographic tuple
comparison, as Python compares key tuples). -/
def keyLtB (a b : String × Int) : Bool :=
  decide ((rowKey a).1 < (rowKey b).1) ||
    (decide ((rowKey a).1 = (rowKey b).1) && strLtB (rowKey a).2 (rowKey b).2)

/-- Stable insertion of a row coming earlier in the input than every row
of `l`: it goes before the first row it does not strictly follow, so
equal-key rows keep their input order (Python's sort is stable). -/
def insertRow (r : String × Int) : List (String × Int) → List (String × Int)
  | [] => [r]
  | y :: ys => if keyLtB y r then y :: insertRow r ys else r :: y :: ys

/-- The stable sort `all_rows.sort(key=lambda x: (-x[1], x[0].lower()))`:
a stable sort is uniquely determined by the key order and the input
order, so insertion sort here equals Python's Timsort observably. -/
def sortRows (l : List (String × Int)) : List (String × Int) :=
  l.foldr insertRow []

/-- `all_rows = [(title, game_totals.get(title, 0)) for title in allowed]`
(line 383), for one enumeration order of the `allowed` set. -/
def all_rows (allowed : List String) (totals : List (String × Int)) :
    List (String × Int) :=
  allowed.map (fun t => (t, alGetD totals t 0))

/-- The final sorted tally report of `main` (lines 382-386). -/
def final_report (nk : String → String) (k2c : List (String × String))
    (allowed : List String) (seeds : List (String × Int))
    (comments : List (String × List (String × Nat))) : List (String × Int) :=
  sortRows (all_rows allowed (runLoop nk k2c (initState seeds) comments).totals)

example :
    validate_ballot [("A", 7), ("B", 7), ("C", 7)] =
      (false, ["Total points 21 > 20",
               "Per-game limit exceeded: A (7), B (7), C (7)"]) := by decide
example : validate_ballot [("A", 6)] =
    (false, ["Per-game limit exceeded: A (6)"]) := by decide
example : sortRows [("b", 1), ("A", 3), ("c", 3)] = [("A", 3), ("c", 3), ("b", 1)] := by
  decide

/-!
General lemmas about the association-list model.
-/

theorem alGet_append {α : Type} (m₁ m₂ : List (String × α)) (k : String) :
    alGet (m₁ ++ m₂) k =
      match alGet m₁ k with
      | some v => some v
      | none => alGet m₂ k := by
  induction m₁ with
  | nil => simp [alGet]
  | cons a rest ih =>
    obtain ⟨x, y⟩ := a
    by_cases h : x = k <;> simp [alGet, h, ih]

theorem alGetD_alAdd (m : List (String × Int)) (k t : String) (v : Int) :
    alGetD (alAdd m k v) t 0 = alGetD m t 0 + if t = k then v else 0 := by
  induction m with
  | nil =>
    by_cases h : k = t
    · simp [alAdd, alGet, alGetD, h]
    · simp [alAdd, alGet, alGetD, h, Ne.symm h]
  | cons a rest ih =>
    obtain ⟨x, y⟩ := a
    by_cases hxk : x = k
    · by_cases hxt : x = t
      · subst hxk; subst hxt
        simp [alAdd, alGet, alGetD]
      · subst hxk
        simp [alAdd, alGet, alGetD, hxt]
        intro h; exact absurd h.symm hxt
    · by_cases hxt : x = t
      · subst hxt
        simp [alAdd, alGet, alGetD, hxk]
      · simp [alAdd, alGet, alGetD, hxk, hxt] at ih ⊢
        exact ih

/-!
Claim C3: the ballot validator.
-/

/-- C3: `validate_ballot` accepts exactly the ballots whose total is at
most 20 and whose every per-title score is at most 5; the two rules are
checked independently: the total-rule message (containing the observed
total) is present whenever the total exceeds 20, the per-game message
(listing every offending pair) is present whenever some title exceeds 5,
and when both rules are violated both reasons are reported. -/
theorem validate_ballot_rules (pg : List (String × Nat)) :
    ((validate_ballot pg).1 = true ↔
      (pg.map (fun tp => tp.2)).sum ≤ 20 ∧ ∀ tp ∈ pg, tp.2 ≤ 5) ∧
    ((pg.map (fun tp => tp.2)).sum > 20 →
      ("Total points " ++ toString ((pg.map (fun tp => tp.2)).sum) ++ " > 20")
        ∈ (validate_ballot pg).2) ∧
    (pg.filter (fun tp => tp.2 > 5) ≠ [] →
      ("Per-game limit exceeded: " ++ String.intercalate ", "
          ((pg.filter (fun tp => tp.2 > 5)).map
            (fun tp => tp.1 ++ " (" ++ toString tp.2 ++ ")")))
        ∈ (validate_ballot pg).2) ∧
    ((pg.map (fun tp => tp.2)).sum > 20 ∧ pg.filter (fun tp => tp.2 > 5) ≠ [] →
      (validate_ballot pg).2.length = 2) := by
  by_cases h1 : (pg.map (fun tp => tp.2)).sum > 20 <;>
    by_cases h2 : pg.filter (fun tp => tp.2 > 5) = []
  · -- total violated, no per-game offender
    refine ⟨?_, ?_, ?_, ?_⟩
    · simp [validate_ballot, h1, h2]
    · intro _; simp [validate_ballot, h1, h2]
    · intro hf; exact absurd h2 hf
    · rintro ⟨-, hf⟩; exact absurd h2 hf
  · -- both rules violated
    refine ⟨?_, ?_, ?_, ?_⟩
    · simp [validate_ballot, h1, h2]
    · intro _; simp [validate_ballot, h1, h2]
    · intro _; simp [validate_ballot, h1, h2]
    · intro _; simp [validate_ballot, h1, h2]
  · -- no rule violated
    have hall : ∀ tp ∈ pg, tp.2 ≤ 5 := by
      intro tp htp
      have := List.filter_eq_nil_iff.mp h2 tp htp
      simpa using this
    refine ⟨?_, ?_, ?_, ?_⟩
    · simp [validate_ballot, h1, h2]
      exact ⟨by omega, fun a b h => hall (a, b) h⟩
    · intro hs; exact absurd hs h1
    · intro hf; exact absurd h2 hf
    · rintro ⟨hs, -⟩; exact absurd hs h1
  · -- only the per-game rule violated
    obtain ⟨tp, htp⟩ := List.exists_mem_of_ne_nil _ h2
    have hmem := List.mem_filter.mp htp
    have hgt : 5 < tp.2 := by simpa using hmem.2
    have hpg : (tp.1, tp.2) ∈ pg := by simpa using hmem.1
    refine ⟨?_, ?_, ?_, ?_⟩
    · simp [validate_ballot, h1, h2]
      exact fun _ => ⟨tp.1, tp.2, hpg, hgt⟩
    · intro hs; exact absurd hs h1
    · intro _; simp [validate_ballot, h1, h2]
    · rintro ⟨hs, -⟩; exact absurd hs h1

/-- Witness for C3 at a ballot violating both rules. -/
theorem validate_ballot_rules_witness :
    ("Total points " ++ toString (([(("A" : String), (21 : Nat))].map
        (fun tp => tp.2)).sum) ++ " > 20") ∈ (validate_ballot [("A", 21)]).2 ∧
    (validate_ballot [("A", 21)]).2.length = 2 :=
  ⟨(validate_ballot_rules [("A", 21)]).2.1 (by decide),
   (validate_ballot_rules [("A", 21)]).2.2.2 ⟨by decide, by decide⟩⟩

/-!
Claim C5: rollover parsing.
-/

/-- C5 (code bug): the rollover column is parsed with Python `int`, which
accepts a leading minus sign, so a cell `"-3"` seeds a *negative* value
into the rollover dict, contradicting the function's own docstring
("rollovers_dict maps canonical_title -> int points (>= 0)") and the
claim's non-negativity. -/
theorem rollover_negative_seed_bug :
    rollovers_of_rows [("G", some "-3")] = [("G", -3)] ∧
    alGetD (rollovers_of_rows [("G", some "-3")]) "G" 0 < 0 := by
  decide

/-!
Claim C6: a ballot that resolves to zero matched titles but at least one
ignored pair.
-/

/-- C6 counterexample: with an empty registry, a ballot whose single pair
is unmatched resolves to `per_game = {}` with one ignored pair; the code
does NOT skip it: it reaches validation (which passes on the empty
`per_game`), so it is counted as a *valid* ballot — contradicting the
claim that it is skipped and not counted. -/
theorem ignored_only_ballot_counterexample :
    (processComment id [] (initState []) "alice" [("Unknown", 3)]).validBallots = 1 ∧
    (processComment id [] (initState []) "alice" [("Unknown", 3)]).invalidLog = [] ∧
    (processComment id [] (initState []) "alice" [("Unknown", 3)]).totals = [] := by
  decide

/-- C6 amended: a ballot that resolves to zero matched titles but at
least one ignored pair is surfaced to validation, which necessarily
passes (the empty `per_game` violates no rule), so the ballot is counted
as valid while contributing nothing to the totals; it is not logged in
the invalid-ballot report. -/
theorem ignored_only_ballot_counted_valid (nk : String → String)
    (k2c : List (String × String)) (st : TallyState) (user : String)
    (pairs : List (String × Nat))
    (h1 : (parse_ballot_pairs nk k2c pairs).1 = [])
    (h2 : (parse_ballot_pairs nk k2c pairs).2 ≠ []) :
    (processComment nk k2c st user pairs).validBallots = st.validBallots + 1 ∧
    (processComment nk k2c st user pairs).invalidBallots = st.invalidBallots ∧
    (processComment nk k2c st user pairs).invalidLog = st.invalidLog ∧
    (processComment nk k2c st user pairs).totals = st.totals := by
  unfold processComment
  simp [h1, h2, validate_ballot]

/-- Witness for C6 amended at a concrete unmatched ballot. -/
theorem ignored_only_ballot_counted_valid_witness :
    (processComment id [] (initState [("G", 2)]) "u" [("X", 1)]).validBallots =
      (initState [("G", 2)]).validBallots + 1 ∧
    (processComment id [] (initState [("G", 2)]) "u" [("X", 1)]).invalidBallots =
      (initState [("G", 2)]).invalidBallots ∧
    (processComment id [] (initState [("G", 2)]) "u" [("X", 1)]).invalidLog =
      (initState [("G", 2)]).invalidLog ∧
    (processComment id [] (initState [("G", 2)]) "u" [("X", 1)]).totals =
      (initState [("G", 2)]).totals :=
  ignored_only_ballot_counted_valid id [] (initState [("G", 2)]) "u" [("X", 1)]
    (by decide) (by decide)

/-!
Claim C4: which candidate keys a single registration attempt touches.
-/

theorem add_one_key_empty (canonical : String) (dbg : Bool) (st : RegState) :
    add_one_key canonical dbg st "" = st := by
  unfold add_one_key
  rw [if_pos rfl]

theorem add_one_key_mapper_of_present (canonical : String) (dbg : Bool) (st : RegState)
    (k prev : String) (hget : alGet st.mapper k = some prev) :
    (add_one_key canonical dbg st k).mapper = st.mapper := by
  unfold add_one_key
  by_cases hk : k = ""
  · rw [if_pos hk]
  · simp only [if_neg hk, hget]
    split
    · split <;> rfl
    · rfl

theorem add_one_key_mapper_of_absent (canonical : String) (dbg : Bool) (st : RegState)
    (k : String) (hk : k ≠ "") (hget : alGet st.mapper k = none) :
    (add_one_key canonical dbg st k).mapper = st.mapper ++ [(k, canonical)] := by
  unfold add_one_key
  simp only [if_neg hk, hget]

theorem alGet_add_one_key (canonical : String) (dbg : Bool) (st : RegState)
    (k k' : String) :
    alGet (add_one_key canonical dbg st k).mapper k' =
      if k' = k ∧ k ≠ "" ∧ alGet st.mapper k = none then some canonical
      else alGet st.mapper k' := by
  by_cases hk : k = ""
  · subst hk
    rw [add_one_key_empty]
    have hcond : ¬(k' = "" ∧ ("" : String) ≠ "" ∧ alGet st.mapper "" = none) := by
      rintro ⟨-, h, -⟩; exact h rfl
    rw [if_neg hcond]
  · cases hget : alGet st.mapper k with
    | some prev =>
      rw [add_one_key_mapper_of_present canonical dbg st k prev hget,
        if_neg (by rintro ⟨-, -, h⟩; exact Option.noConfusion h)]
    | none =>
      rw [add_one_key_mapper_of_absent canonical dbg st k hk hget, alGet_append]
      by_cases hkk : k' = k
      · subst hkk
        rw [hget, if_pos ⟨rfl, hk, rfl⟩]
        simp [alGet]
      · rw [if_neg (fun hcnd => hkk hcnd.1)]
        cases hga : alGet st.mapper k' with
        | some v => rfl
        | none =>
          have hkn : ¬ k = k' := fun h => hkk h.symm
          simp [alGet, hkn]

/-- C4 counterexample: registering the key `"a!!"` also registers `"a"`
(the whole trailing `!?.` run is stripped), not `"a!"` (one character
stripped) — `str.rstrip` removes every trailing character in the set. -/
theorem add_key_strips_whole_run_counterexample :
    alGet (add_key_with_variants ⟨[], [], []⟩ "a!!" "T" false).mapper "a" = some "T" ∧
    alGet (add_key_with_variants ⟨[], [], []⟩ "a!!" "T" false).mapper "a!" = none := by
  decide

/-- C4 amended: a registration attempt touches exactly the normalized key
itself and, when different and non-empty, the same key with its *entire*
maximal trailing run of `!?.` characters stripped; each touched key that
is absent from the mapper is bound to the canonical title, each present
key keeps its previous binding, and every other key is untouched. -/
theorem add_key_registers_key_and_stripped (st : RegState) (key canonical : String)
    (dbg : Bool) :
    (∀ k, k ≠ key → k ≠ rstrip_punct key →
      alGet (add_key_with_variants st key canonical dbg).mapper k = alGet st.mapper k) ∧
    (∀ k, (k = key ∨ k = rstrip_punct key) → k ≠ "" →
      alGet (add_key_with_variants st key canonical dbg).mapper k =
        some ((alGet st.mapper k).getD canonical)) := by
  by_cases hsk : rstrip_punct key = key
  · have hc : candidate_keys key = [key] := by unfold candidate_keys; rw [if_pos hsk]
    have hres : add_key_with_variants st key canonical dbg =
        add_one_key canonical dbg st key := by
      unfold add_key_with_variants
      rw [hc, List.foldl_cons, List.foldl_nil]
    rw [hres]
    constructor
    · intro k hk1 _
      rw [alGet_add_one_key, if_neg (fun hcnd => hk1 hcnd.1)]
    · intro k hk hke
      have hk' : k = key := by
        rcases hk with h | h
        · exact h
        · exact h.trans hsk
      subst hk'
      rw [alGet_add_one_key]
      cases hget : alGet st.mapper k with
      | some prev =>
        rw [if_neg (by rintro ⟨-, -, h⟩; exact Option.noConfusion h)]
        rfl
      | none => rw [if_pos ⟨rfl, hke, rfl⟩]; rfl
  · have hc : candidate_keys key = [key, rstrip_punct key] := by
      unfold candidate_keys; rw [if_neg hsk]
    have hres : add_key_with_variants st key canonical dbg =
        add_one_key canonical dbg (add_one_key canonical dbg st key) (rstrip_punct key) := by
      unfold add_key_with_variants
      rw [hc, List.foldl_cons, List.foldl_cons, List.foldl_nil]
    rw [hres]
    constructor
    · intro k hk1 hk2
      rw [alGet_add_one_key, if_neg (fun hcnd => hk2 hcnd.1),
        alGet_add_one_key, if_neg (fun hcnd => hk1 hcnd.1)]
    · intro k hk hke
      have hmid : ∀ x, alGet (add_one_key canonical dbg st key).mapper x =
          if x = key ∧ key ≠ "" ∧ alGet st.mapper key = none then some canonical
          else alGet st.mapper x := fun x => alGet_add_one_key canonical dbg st key x
      rcases hk with hk | hk
      · subst hk
        have hne : ¬ k = rstrip_punct k := fun h => hsk h.symm
        rw [alGet_add_one_key, if_neg (fun hcnd => hne hcnd.1), hmid k]
        cases hget : alGet st.mapper k with
        | some prev =>
          rw [if_neg (by rintro ⟨-, -, h⟩; exact Option.noConfusion h)]
          rfl
        | none => rw [if_pos ⟨rfl, hke, rfl⟩]; rfl
      · subst hk
        have hne : ¬ rstrip_punct key = key := hsk
        have hmid2 : alGet (add_one_key canonical dbg st key).mapper (rstrip_punct key) =
            alGet st.mapper (rstrip_punct key) := by
          rw [hmid (rstrip_punct key), if_neg (fun hcnd => hne hcnd.1)]
        rw [alGet_add_one_key, hmid2]
        cases hget : alGet st.mapper (rstrip_punct key) with
        | some prev =>
          rw [if_neg (by rintro ⟨-, -, h⟩; exact Option.noConfusion h)]
          rfl
        | none => rw [if_pos ⟨rfl, hke, rfl⟩]; rfl

/-- Witness for C4 amended: registering `"b?"` binds both `"b?"` and the
stripped `"b"`. -/
theorem add_key_registers_key_and_stripped_witness :
    alGet (add_key_with_variants ⟨[], [], []⟩ "b?" "T" false).mapper "b" =
      some ((alGet (RegState.mk [] [] []).mapper "b").getD "T") :=
  (add_key_registers_key_and_stripped ⟨[], [], []⟩ "b?" "T" false).2 "b"
    (Or.inr (by decide)) (by decide)

/-!
Claim C7: report ordering.
-/

theorem listLtC_trichotomy (a : List Char) :
    ∀ b, listLtC a b = true ∨ listLtC b a = true ∨ a = b := by
  induction a with
  | nil =>
    intro b
    cases b with
    | nil => right; right; rfl
    | cons d ds => left; rfl
  | cons c cs ih =>
    intro b
    cases b with
    | nil => right; left; rfl
    | cons d ds =>
      rcases Nat.lt_trichotomy c.toNat d.toNat with h | h | h
      · left; simp [listLtC, h]
      · have hcd : c = d := Char.ext (UInt32.ext h)
        subst hcd
        rcases ih ds with h' | h' | h'
        · left; simp [listLtC, h']
        · right; left; simp [listLtC, h']
        · right; right; rw [h']
      · right; left; simp [listLtC, h]

theorem mem_insertRow (r y : String × Int) (l : List (String × Int)) :
    y ∈ insertRow r l ↔ y = r ∨ y ∈ l := by
  induction l with
  | nil => simp [insertRow]
  | cons a as ih =>
    by_cases h : keyLtB a r
    · simp only [insertRow, if_pos h, List.mem_cons, ih]
      tauto
    · simp only [insertRow, if_neg h, List.mem_cons]

theorem mem_sortRows (y : String × Int) (l : List (String × Int)) :
    y ∈ sortRows l ↔ y ∈ l := by
  induction l with
  | nil => simp [sortRows]
  | cons a as ih =>
    show y ∈ insertRow a (sortRows as) ↔ _
    rw [mem_insertRow, ih]
    simp

/-- C7 counterexample: the report ordering admits ties.  The two rows
`("Foo", 0)` and `("FOO", 0)` — distinct canonical titles with equal
totals and case-insensitively equal names — are a permutation of each
other (the same `allowed` set under two enumeration orders), yet the
stable sort emits them in two different orders, so the output is *not*
independent of the set's arbitrary iteration order. -/
theorem report_tie_counterexample :
    sortRows [("Foo", 0), ("FOO", 0)] ≠ sortRows [("FOO", 0), ("Foo", 0)] ∧
    [(("Foo" : String), (0 : Int)), ("FOO", 0)].Perm [("FOO", 0), ("Foo", 0)] :=
  ⟨by decide, List.Perm.swap ("FOO", 0) ("Foo", 0) []⟩

/-- C7 amended: for a fixed enumeration order of `allowedTitles` the
pipeline is a pure function, hence reproducible; the sort-key comparison
is total, and two rows tie exactly when their totals are equal and their
titles are case-insensitively equal, in which case the stable sort falls
back to the (arbitrary) set iteration order; the sorted report contains
exactly the input rows. -/
theorem report_order_amended :
    (∀ a b : String × Int, keyLtB a b = true ∨ keyLtB b a = true ∨ rowKey a = rowKey b) ∧
    (∀ a b : String × Int,
      rowKey a = rowKey b ↔ a.2 = b.2 ∧ ascii_lower a.1 = ascii_lower b.1) ∧
    (∀ (l : List (String × Int)) (r : String × Int), r ∈ sortRows l ↔ r ∈ l) := by
  refine ⟨?_, ?_, ?_⟩
  · intro a b
    rcases Int.lt_trichotomy (rowKey a).1 (rowKey b).1 with h | h | h
    · left; simp [keyLtB, h]
    · rcases listLtC_trichotomy ((rowKey a).2).data ((rowKey b).2).data with h' | h' | h'
      · left; simp [keyLtB, h, strLtB, h']
      · right; left; simp [keyLtB, h.symm, strLtB, h']
      · right; right
        have h2 : (rowKey a).2 = (rowKey b).2 := String.ext h'
        exact Prod.ext h h2
    · right; left; simp [keyLtB, h]
  · intro a b
    simp only [rowKey, Prod.mk.injEq, neg_inj]
  · intro l r
    exact mem_sortRows r l

/-!
Claim C8: first-writer-wins registry invariant.
-/

/-- Diagnostic-state invariant: the printed collision log has no
duplicates and every printed triple has been recorded in the warnset. -/
def RegInv (st : RegState) : Prop :=
  st.log.Nodup ∧ ∀ e ∈ st.log, e ∈ st.warnset

theorem add_one_key_persist (canonical : String) (dbg : Bool) (st : RegState)
    (k k' c : String) (h : alGet st.mapper k' = some c) :
    alGet (add_one_key canonical dbg st k).mapper k' = some c := by
  rw [alGet_add_one_key]
  by_cases hkk : k' = k
  · rw [if_neg (by rintro ⟨he, -, hn⟩; rw [← he, h] at hn; exact Option.noConfusion hn)]
    exact h
  · rw [if_neg (fun hc => hkk hc.1)]
    exact h

theorem foldl_add_one_key_persist (canonical : String) (dbg : Bool) (ks : List String) :
    ∀ (st : RegState) (k' c : String), alGet st.mapper k' = some c →
      alGet (ks.foldl (add_one_key canonical dbg) st).mapper k' = some c := by
  induction ks with
  | nil => intro st k' c h; simpa using h
  | cons a as ih =>
    intro st k' c h
    rw [List.foldl_cons]
    exact ih _ k' c (add_one_key_persist canonical dbg st a k' c h)

theorem register_all_persist (ops : List (String × String × Bool)) :
    ∀ (st : RegState) (k c : String), alGet st.mapper k = some c →
      alGet (register_all st ops).mapper k = some c := by
  induction ops with
  | nil => intro st k c h; simpa [register_all] using h
  | cons op rest ih =>
    intro st k c h
    show alGet ((op :: rest).foldl
      (fun s o => add_key_with_variants s o.1 o.2.1 o.2.2) st).mapper k = some c
    rw [List.foldl_cons]
    exact ih _ k c
      (foldl_add_one_key_persist op.2.1 op.2.2 (candidate_keys op.1) st k c h)

theorem add_one_key_inv (canonical : String) (dbg : Bool) (st : RegState) (k : String)
    (h : RegInv st) : RegInv (add_one_key canonical dbg st k) := by
  unfold add_one_key
  split
  · exact h
  · split
    · rename_i prev hget
      split
      · split
        · rename_i hdbg
          refine ⟨?_, ?_⟩
          · show (st.log ++ [(k, prev, canonical)]).Nodup
            rw [List.nodup_append]
            refine ⟨h.1, List.nodup_singleton _, ?_⟩
            intro e he hmem
            have he1 : e = (k, prev, canonical) := by simpa using hmem
            subst he1
            exact hdbg.2 (h.2 _ he)
          · intro e he
            rcases List.mem_append.mp he with he | he
            · exact List.mem_append.mpr (Or.inl (h.2 e he))
            · exact List.mem_append.mpr (Or.inr he)
        · exact h
      · exact h
    · exact h

theorem foldl_add_one_key_inv (canonical : String) (dbg : Bool) (ks : List String) :
    ∀ st : RegState, RegInv st → RegInv (ks.foldl (add_one_key canonical dbg) st) := by
  induction ks with
  | nil => intro st h; simpa using h
  | cons a as ih =>
    intro st h
    rw [List.foldl_cons]
    exact ih _ (add_one_key_inv canonical dbg st a h)

theorem register_all_inv (ops : List (String × String × Bool)) :
    ∀ st : RegState, RegInv st → RegInv (register_all st ops) := by
  induction ops with
  | nil => intro st h; simpa [register_all] using h
  | cons op rest ih =>
    intro st h
    show RegInv ((op :: rest).foldl
      (fun s o => add_key_with_variants s o.1 o.2.1 o.2.2) st)
    rw [List.foldl_cons]
    exact ih _ (foldl_add_one_key_inv op.2.1 op.2.2 (candidate_keys op.1) st h)

theorem add_one_key_log_nodebug (canonical : String) (st : RegState) (k : String) :
    (add_one_key canonical false st k).log = st.log := by
  unfold add_one_key
  split
  · rfl
  · split
    · split
      · split
        · rename_i hdbg
          exact absurd hdbg.1 (by simp)
        · rfl
      · rfl
    · rfl

theorem foldl_add_one_key_log_nodebug (canonical : String) (ks : List String) :
    ∀ st : RegState, (ks.foldl (add_one_key canonical false) st).log = st.log := by
  induction ks with
  | nil => intro st; rfl
  | cons a as ih =>
    intro st
    rw [List.foldl_cons, ih, add_one_key_log_nodebug]

theorem foldl_add_one_key_mapper_noop (canonical : String) (dbg : Bool)
    (ks : List String) :
    ∀ st : RegState, (∀ k ∈ ks, alGet st.mapper k ≠ none) →
      (ks.foldl (add_one_key canonical dbg) st).mapper = st.mapper := by
  induction ks with
  | nil => intro st _; rfl
  | cons a as ih =>
    intro st h
    have hm : (add_one_key canonical dbg st a).mapper = st.mapper := by
      by_cases hk : a = ""
      · rw [hk, add_one_key_empty]
      · cases hga : alGet st.mapper a with
        | none => exact absurd hga (h a (List.mem_cons_self a as))
        | some prev => exact add_one_key_mapper_of_present canonical dbg st a prev hga
    have hrest : ∀ k ∈ as, alGet (add_one_key canonical dbg st a).mapper k ≠ none := by
      intro k hkmem
      rw [hm]
      exact h k (List.mem_cons_of_mem a hkmem)
    rw [List.foldl_cons, ih _ hrest, hm]

/-- C8: over any sequence of registrations, (i) an existing binding of a
normalized key to a canonical title is never changed — in particular a
conflicting registration is a no-op; (ii) the collision log never prints
the same (key, existing, incoming) triple twice; (iii) nothing is printed
unless diagnostics are enabled; (iv) a registration all of whose candidate
keys are already bound leaves the mapper entirely unchanged.  (The model
is a total function: no registration can raise an error.) -/
theorem registry_first_writer_wins (ops : List (String × String × Bool)) (st : RegState) :
    (∀ k c, alGet st.mapper k = some c → alGet (register_all st ops).mapper k = some c) ∧
    (RegInv st → (register_all st ops).log.Nodup) ∧
    ((∀ op ∈ ops, op.2.2 = false) → (register_all st ops).log = st.log) ∧
    (∀ key c dbg, (∀ k ∈ candidate_keys key, alGet st.mapper k ≠ none) →
      (add_key_with_variants st key c dbg).mapper = st.mapper) := by
  refine ⟨?_, ?_, ?_, ?_⟩
  · intro k c h
    exact register_all_persist ops st k c h
  · intro h
    exact (register_all_inv ops st h).1
  · intro hdbg
    induction ops generalizing st with
    | nil => rfl
    | cons op rest ih =>
      have hop : op.2.2 = false := hdbg op (List.mem_cons_self op rest)
      have hstep : (add_key_with_variants st op.1 op.2.1 op.2.2).log = st.log := by
        unfold add_key_with_variants
        rw [hop]
        exact foldl_add_one_key_log_nodebug op.2.1 (candidate_keys op.1) st
      have hrest := ih (add_key_with_variants st op.1 op.2.1 op.2.2)
        (fun o ho => hdbg o (List.mem_cons_of_mem op ho))
      have hcons : register_all st (op :: rest) =
          register_all (add_key_with_variants st op.1 op.2.1 op.2.2) rest := rfl
      rw [hcons, hrest, hstep]
  · intro key c dbg h
    unfold add_key_with_variants
    exact foldl_add_one_key_mapper_noop c dbg (candidate_keys key) st h

/-- Witness for C8: a conflicting re-registration leaves the original
binding intact and the log duplicate-free. -/
theorem registry_first_writer_wins_witness :
    alGet (register_all (RegState.mk [("k", "A")] [] [])
      [("k", "B", true)]).mapper "k" = some "A" ∧
    (register_all (RegState.mk [("k", "A")] [] []) [("k", "B", true)]).log.Nodup :=
  ⟨(registry_first_writer_wins [("k", "B", true)] (RegState.mk [("k", "A")] [] [])).1
      "k" "A" (by decide),
   (registry_first_writer_wins [("k", "B", true)] (RegState.mk [("k", "A")] [] [])).2.1
      ⟨List.nodup_nil, fun e he => absurd he (List.not_mem_nil e)⟩⟩

/-!
Claim C2: every allowed title appears in the report with seed + valid
ballot contributions.
-/

/-- Total points a resolved `per_game` dict contributes to title `T`
(sum over its entries for `T`; the dict has unique keys, so this is its
value at `T`, or 0). -/
def pgSum (pg : List (String × Nat)) (T : String) : Int :=
  (pg.map (fun tp => if tp.1 = T then (tp.2 : Int) else 0)).sum

/-- Contribution of one ballot (given by its extracted pairs) to title
`T`: its `per_game` value at `T` when the ballot validates, else 0. -/
def ballotContrib (nk : String → String) (k2c : List (String × String))
    (pairs : List (String × Nat)) (T : String) : Int :=
  let pg := (parse_ballot_pairs nk k2c pairs).1
  if (validate_ballot pg).1 then pgSum pg T else 0

/-- Total contribution of a list of ballots to title `T`. -/
def ballotSum (nk : String → String) (k2c : List (String × String))
    (comments : List (String × List (String × Nat))) (T : String) : Int :=
  (comments.map (fun c => ballotContrib nk k2c c.2 T)).sum

theorem alGetD_foldl_alAdd (pg : List (String × Nat)) :
    ∀ (m : List (String × Int)) (T : String),
      alGetD (pg.foldl (fun m tp => alAdd m tp.1 (tp.2 : Int)) m) T 0 =
        alGetD m T 0 + pgSum pg T := by
  induction pg with
  | nil => intro m T; simp [pgSum]
  | cons tp rest ih =>
    intro m T
    rw [List.foldl_cons, ih, alGetD_alAdd]
    by_cases h : T = tp.1
    · simp [pgSum, h]
      omega
    · have h2 : ¬ tp.1 = T := fun hh => h hh.symm
      simp [pgSum, h, h2]

theorem processComment_totals (nk : String → String) (k2c : List (String × String))
    (st : TallyState) (user : String) (pairs : List (String × Nat)) (T : String) :
    alGetD (processComment nk k2c st user pairs).totals T 0 =
      alGetD st.totals T 0 + ballotContrib nk k2c pairs T := by
  unfold processComment ballotContrib
  by_cases hskip : (parse_ballot_pairs nk k2c pairs).1.isEmpty ∧
      (parse_ballot_pairs nk k2c pairs).2.isEmpty
  · have hpg : (parse_ballot_pairs nk k2c pairs).1 = [] :=
      List.isEmpty_iff.mp hskip.1
    simp only [if_pos hskip, hpg]
    simp [validate_ballot, pgSum]
    split <;> rfl
  · simp only [if_neg hskip]
    by_cases hval : (validate_ballot (parse_ballot_pairs nk k2c pairs).1).1 = false
    · simp [hval]
    · have hval' : (validate_ballot (parse_ballot_pairs nk k2c pairs).1).1 = true :=
        eq_true_of_ne_false hval
      simp [hval']
      exact alGetD_foldl_alAdd (parse_ballot_pairs nk k2c pairs).1 st.totals T

theorem runLoop_totals (nk : String → String) (k2c : List (String × String))
    (comments : List (String × List (String × Nat))) :
    ∀ (st : TallyState) (T : String),
      alGetD (runLoop nk k2c st comments).totals T 0 =
        alGetD st.totals T 0 + ballotSum nk k2c comments T := by
  induction comments with
  | nil => intro st T; simp [runLoop, ballotSum]
  | cons c rest ih =>
    intro st T
    have hcons : runLoop nk k2c st (c :: rest) =
        runLoop nk k2c (processComment nk k2c st c.1 c.2) rest := rfl
    rw [hcons, ih, processComment_totals]
    simp only [ballotSum, List.map_cons, List.sum_cons]
    ring

/-- C2: for every canonical title `T` in `allowed`, the final sorted
report contains the row `(T, seed(T) + Σ valid-ballot contributions to
T)`; invalid and skipped ballots contribute zero (their contribution term
is zero), and a title no ballot mentions still gets a row. -/
theorem tally_reports_every_title (nk : String → String)
    (k2c : List (String × String)) (allowed : List String)
    (seeds : List (String × Int)) (comments : List (String × List (String × Nat)))
    (T : String) (hT : T ∈ allowed) :
    (T, alGetD seeds T 0 + ballotSum nk k2c comments T) ∈
      final_report nk k2c allowed seeds comments := by
  unfold final_report
  rw [mem_sortRows]
  unfold all_rows
  refine List.mem_map.mpr ⟨T, hT, ?_⟩
  rw [runLoop_totals]
  rfl

/-- Witness for C2 (the rollover-seeding test case): a registry seeding
`"G"` with 3 points and no ballots yields a report row for `"G"`. -/
theorem tally_reports_every_title_witness :
    ("G", alGetD [(("G" : String), (3 : Int))] "G" 0 + ballotSum id [] [] "G") ∈
      final_report id [] ["G"] [("G", 3)] [] :=
  tally_reports_every_title id [] ["G"] [("G", 3)] [] "G" (by decide)

/-!
Claim C9: idempotence of the normalization pipeline.  The concrete parts
(`fold_punct`, `pyStrip`) are proved idempotent outright; the two Unicode
library calls (`nfc`, `lower`) enter the final theorem as parameters
constrained only by properties the Unicode standard guarantees for
`unicodedata.normalize("NFC", .)` and `str.lower()`.
-/

/-- The domain of the `fold_punct` replacement table. -/
def replDom : List Char :=
  [Char.ofNat 0x2019, Char.ofNat 0x2018, Char.ofNat 0x2032, Char.ofNat 0x201C,
   Char.ofNat 0x201D, Char.ofNat 0x2013, Char.ofNat 0x2014, Char.ofNat 0x2212,
   Char.ofNat 0x00A0]

theorem replChar_of_not_mem (c : Char) (h : c ∉ replDom) : replChar c = c := by
  simp [replDom] at h
  obtain ⟨h1, h2, h3, h4, h5, h6, h7, h8, h9⟩ := h
  unfold replChar
  rw [if_neg h1, if_neg h2, if_neg h3, if_neg h4, if_neg h5, if_neg h6, if_neg h7,
    if_neg h8, if_neg h9]

theorem replChar_idem (c : Char) : replChar (replChar c) = replChar c := by
  by_cases h : c ∈ replDom
  · fin_cases h <;> decide
  · rw [replChar_of_not_mem c h]
    exact replChar_of_not_mem c h

theorem map_id_of_mem {α : Type} (f : α → α) :
    ∀ l : List α, (∀ c ∈ l, f c = c) → l.map f = l := by
  intro l
  induction l with
  | nil => intro _; rfl
  | cons a as ih =>
    intro h
    rw [List.map_cons, h a (List.mem_cons_self a as),
      ih (fun c hc => h c (List.mem_cons_of_mem a hc))]

theorem mem_collapseAux (l : List Char) :
    ∀ (b : Bool) (c : Char), c ∈ collapseAux b l → c = ' ' ∨ c ∈ l := by
  induction l with
  | nil => intro b c h; simp [collapseAux] at h
  | cons d rest ih =>
    intro b c h
    by_cases hd : pyIsSpace d
    · cases b with
      | false =>
        simp only [collapseAux, hd, if_pos, if_true, ite_true] at h
        rcases List.mem_cons.mp h with h | h
        · exact Or.inl h
        · rcases ih true c h with h' | h'
          · exact Or.inl h'
          · exact Or.inr (List.mem_cons_of_mem _ h')
      | true =>
        simp only [collapseAux, hd, if_pos, if_true, ite_true] at h
        rcases ih true c h with h' | h'
        · exact Or.inl h'
        · exact Or.inr (List.mem_cons_of_mem _ h')
    · simp only [collapseAux, hd, if_false, ite_false] at h
      rcases List.mem_cons.mp h with h | h
      · exact Or.inr (h ▸ List.mem_cons_self d rest)
      · rcases ih false c h with h' | h'
        · exact Or.inl h'
        · exact Or.inr (List.mem_cons_of_mem _ h')

theorem dropTrailingWs_parts (l : List Char) :
    ∃ suf, l = dropTrailingWs l ++ suf ∧ ∀ c ∈ suf, pyIsSpace c = true := by
  induction l with
  | nil => exact ⟨[], rfl, by simp⟩
  | cons c rest ih =>
    obtain ⟨suf, hsuf, hws⟩ := ih
    cases hdt : dropTrailingWs rest with
    | nil =>
      rw [hdt] at hsuf
      simp only [List.nil_append] at hsuf
      by_cases hc : pyIsSpace c
      · refine ⟨c :: rest, ?_, ?_⟩
        · simp [dropTrailingWs, hdt, hc]
        · intro x hx
          rcases List.mem_cons.mp hx with hx | hx
          · rw [hx]; exact hc
          · exact hws x (hsuf ▸ hx)
      · refine ⟨rest, ?_, ?_⟩
        · simp [dropTrailingWs, hdt, hc]
        · intro x hx
          exact hws x (hsuf ▸ hx)
    | cons a t =>
      refine ⟨suf, ?_, hws⟩
      have hstep : dropTrailingWs (c :: rest) = c :: a :: t := by
        simp [dropTrailingWs, hdt]
      rw [hstep]
      rw [hdt] at hsuf
      rw [List.cons_append]
      exact congrArg (c :: ·) hsuf

theorem mem_dropTrailingWs (l : List Char) (c : Char) (h : c ∈ dropTrailingWs l) :
    c ∈ l := by
  obtain ⟨suf, hsuf, -⟩ := dropTrailingWs_parts l
  rw [hsuf]
  exact List.mem_append_left suf h

theorem mem_pyStrip (l : List Char) (c : Char) (h : c ∈ pyStrip l) : c ∈ l := by
  have h1 : c ∈ l.dropWhile pyIsSpace := mem_dropTrailingWs _ c h
  exact (List.dropWhile_sublist pyIsSpace).subset h1

/-- Well-collapsed whitespace: every whitespace character is a plain
space and no two adjacent characters are both whitespace (the shape of
`collapseWs` output, preserved by stripping). -/
def wsClean : List Char → Bool
  | [] => true
  | c :: rest =>
    (!pyIsSpace c || c == ' ') &&
    (match rest with
     | [] => true
     | d :: _ => !(pyIsSpace c && pyIsSpace d)) &&
    wsClean rest

theorem wsClean_tail (c : Char) (l : List Char) (h : wsClean (c :: l) = true) :
    wsClean l = true := by
  unfold wsClean at h
  exact (Bool.and_eq_true_iff.mp h).2

theorem collapseAux_true_head (l : List Char) :
    ∀ c t, collapseAux true l = c :: t → pyIsSpace c = false := by
  induction l with
  | nil => intro c t h; simp [collapseAux] at h
  | cons d rest ih =>
    intro c t h
    by_cases hd : pyIsSpace d
    · simp only [collapseAux, hd, if_pos, if_true, ite_true] at h
      exact ih c t h
    · simp only [collapseAux, hd, if_false, ite_false] at h
      obtain ⟨hdc, -⟩ := List.cons.injEq .. ▸ h
      rw [← hdc]
      exact Bool.not_eq_true _ ▸ (by simpa using hd)

theorem wsClean_collapseAux (l : List Char) :
    ∀ b : Bool, wsClean (collapseAux b l) = true := by
  induction l with
  | nil => intro b; rfl
  | cons d rest ih =>
    intro b
    by_cases hd : pyIsSpace d
    · cases b with
      | true => simpa only [collapseAux, hd, if_pos, if_true, ite_true] using ih true
      | false =>
        simp only [collapseAux, hd, if_pos, if_true, ite_true]
        cases hct : collapseAux true rest with
        | nil => decide
        | cons a t =>
          have ha : pyIsSpace a = false := collapseAux_true_head rest a t hct
          have hrest : wsClean (a :: t) = true := hct ▸ ih true
          unfold wsClean
          simp [ha, hrest]
    · simp only [collapseAux, hd, if_false, ite_false]
      cases hcf : collapseAux false rest with
      | nil => simp [wsClean, hd]
      | cons a t =>
        have hrest : wsClean (a :: t) = true := hcf ▸ ih false
        simp [wsClean, hd]
        simpa [wsClean] using hrest

theorem collapseAux_fixed (l : List Char) (h : wsClean l = true) :
    collapseAux false l = l := by
  induction l with
  | nil => rfl
  | cons d rest ih =>
    unfold wsClean at h
    rw [Bool.and_eq_true_iff, Bool.and_eq_true_iff] at h
    obtain ⟨⟨h1, h2⟩, h3⟩ := h
    by_cases hd : pyIsSpace d
    · have hd' : d = ' ' := by
        rw [hd] at h1
        simpa using h1
      subst hd'
      cases rest with
      | nil => decide
      | cons a t =>
        have ha : pyIsSpace a = false := by
          rw [hd] at h2
          simpa using h2
        have hrest : collapseAux false (a :: t) = a :: t := ih h3
        have hsplit : collapseAux false (a :: t) = a :: collapseAux false t := by
          simp [collapseAux, ha]
        have ht : collapseAux false t = t := by
          have hh := hsplit.symm.trans hrest
          simpa using hh
        show collapseAux false (' ' :: a :: t) = ' ' :: a :: t
        simp [collapseAux, ha, ht]
    · have hrest : collapseAux false rest = rest := ih h3
      simp [collapseAux, hd, hrest]

theorem wsClean_append_left (a : List Char) :
    ∀ b : List Char, wsClean (a ++ b) = true → wsClean a = true := by
  induction a with
  | nil => intro b _; rfl
  | cons c as ih =>
    intro b h
    cases as with
    | nil =>
      cases b with
      | nil => exact h
      | cons d bs =>
        unfold wsClean at h
        rw [List.cons_append, List.nil_append] at h
        rw [Bool.and_eq_true_iff, Bool.and_eq_true_iff] at h
        show (((!pyIsSpace c || c == ' ') && true) && true) = true
        rw [h.1.1]
        rfl
    | cons a2 as2 =>
      unfold wsClean at h
      rw [List.cons_append] at h
      rw [Bool.and_eq_true_iff, Bool.and_eq_true_iff] at h
      obtain ⟨⟨h1, h2⟩, h3⟩ := h
      have h3' : wsClean (a2 :: as2) = true := ih b (by rwa [List.cons_append] at h3)
      have h2' : (!(pyIsSpace c && pyIsSpace a2)) = true := h2
      show (((!pyIsSpace c || c == ' ') && !(pyIsSpace c && pyIsSpace a2)) &&
        wsClean (a2 :: as2)) = true
      rw [h1, h2', h3']
      rfl

theorem wsClean_dropWhile (p : Char → Bool) (l : List Char)
    (h : wsClean l = true) : wsClean (l.dropWhile p) = true := by
  induction l with
  | nil => exact h
  | cons c rest ih =>
    rw [List.dropWhile_cons]
    by_cases hc : p c
    · simp only [hc, if_true, ite_true]
      exact ih (wsClean_tail c rest h)
    · simp only [hc, if_false, ite_false]
      exact h

theorem wsClean_dropTrailingWs (l : List Char) (h : wsClean l = true) :
    wsClean (dropTrailingWs l) = true := by
  obtain ⟨suf, hsuf, -⟩ := dropTrailingWs_parts l
  exact wsClean_append_left _ suf (hsuf ▸ h)

theorem wsClean_pyStrip (l : List Char) (h : wsClean l = true) :
    wsClean (pyStrip l) = true :=
  wsClean_dropTrailingWs _ (wsClean_dropWhile pyIsSpace l h)

theorem dropTrailingWs_idem (l : List Char) :
    dropTrailingWs (dropTrailingWs l) = dropTrailingWs l := by
  induction l with
  | nil => rfl
  | cons c rest ih =>
    cases hdt : dropTrailingWs rest with
    | nil =>
      by_cases hc : pyIsSpace c
      · simp [dropTrailingWs, hdt, hc]
      · simp [dropTrailingWs, hdt, hc]
    | cons a t =>
      have h2 : dropTrailingWs (a :: t) = a :: t := by
        rw [← hdt]; exact ih
      have hstep : dropTrailingWs (c :: rest) = c :: a :: t := by
        simp [dropTrailingWs, hdt]
      rw [hstep]
      show (match dropTrailingWs (a :: t) with
        | [] => if pyIsSpace c = true then [] else [c]
        | r => c :: r) = c :: a :: t
      rw [h2]

theorem dropWhile_head_false (p : Char → Bool) (l : List Char) :
    ∀ c t, l.dropWhile p = c :: t → p c = false := by
  induction l with
  | nil => intro c t h; simp at h
  | cons d rest ih =>
    intro c t h
    rw [List.dropWhile_cons] at h
    by_cases hd : p d
    · simp only [hd, if_true, ite_true] at h
      exact ih c t h
    · simp only [hd, if_false, ite_false] at h
      obtain ⟨h1, -⟩ := List.cons.injEq .. ▸ h
      rw [← h1]
      simpa using hd

theorem dropTrailingWs_head (l : List Char) (c : Char) (t : List Char)
    (h : dropTrailingWs l = c :: t) : ∃ t', l = c :: t' := by
  obtain ⟨suf, hsuf, -⟩ := dropTrailingWs_parts l
  rw [h] at hsuf
  exact ⟨t ++ suf, by simpa using hsuf⟩

theorem pyStrip_idem (l : List Char) : pyStrip (pyStrip l) = pyStrip l := by
  show dropTrailingWs ((dropTrailingWs (l.dropWhile pyIsSpace)).dropWhile pyIsSpace) =
    dropTrailingWs (l.dropWhile pyIsSpace)
  have hdw : (dropTrailingWs (l.dropWhile pyIsSpace)).dropWhile pyIsSpace =
      dropTrailingWs (l.dropWhile pyIsSpace) := by
    cases hh : dropTrailingWs (l.dropWhile pyIsSpace) with
    | nil => rfl
    | cons c t =>
      obtain ⟨t', ht'⟩ := dropTrailingWs_head _ c t hh
      have hc : pyIsSpace c = false := dropWhile_head_false pyIsSpace l c t' ht'
      rw [List.dropWhile_cons, hc]
      simp
  rw [hdw, dropTrailingWs_idem]

theorem pyStrip_fold_punct (x : List Char) : pyStrip (fold_punct x) = fold_punct x :=
  pyStrip_idem (collapseWs (x.map replChar))

theorem wsClean_fold_punct (x : List Char) : wsClean (fold_punct x) = true :=
  wsClean_pyStrip _ (wsClean_collapseAux (x.map replChar) false)

theorem fold_punct_chars_replFixed (x : List Char) :
    ∀ c ∈ fold_punct x, replChar c = c := by
  intro c hc
  have hc1 : c ∈ collapseWs (x.map replChar) := mem_pyStrip _ c hc
  rcases mem_collapseAux (x.map replChar) false c hc1 with h | h
  · rw [h]; decide
  · obtain ⟨d, -, hd⟩ := List.mem_map.mp h
    rw [← hd]
    exact replChar_idem d

theorem fold_punct_idem (x : List Char) :
    fold_punct (fold_punct x) = fold_punct x := by
  show pyStrip (collapseWs ((fold_punct x).map replChar)) = fold_punct x
  rw [map_id_of_mem replChar (fold_punct x) (fold_punct_chars_replFixed x)]
  show pyStrip (collapseAux false (fold_punct x)) = fold_punct x
  rw [collapseAux_fixed (fold_punct x) (wsClean_fold_punct x)]
  exact pyStrip_fold_punct x

/-- C9: `normKey(normKey(s)) = normKey(s)` for every string `s`.  The
concrete steps of the pipeline (punctuation folding, whitespace
collapsing, trimming) are proved idempotent outright; the two Unicode
library calls are parameters constrained exactly by what the Unicode
standard guarantees for `unicodedata.normalize("NFC", .)` and
`str.lower()`: NFC is idempotent and stripping/folding/lower-casing an
NFC-normal string leaves it NFC-normal; lower-casing is idempotent and
maps already-stripped (resp. already-folded) strings to
already-stripped (resp. already-folded) strings. -/
theorem norm_key_idempotent (nfc lower : List Char → List Char)
    (hn1 : ∀ t, nfc (nfc t) = nfc t)
    (hn2 : ∀ t, nfc t = t → nfc (pyStrip t) = pyStrip t)
    (hn3 : ∀ t, nfc t = t → nfc (fold_punct t) = fold_punct t)
    (hn4 : ∀ t, nfc t = t → nfc (lower t) = lower t)
    (hl1 : ∀ t, lower (lower t) = lower t)
    (hl2 : ∀ t, pyStrip t = t → pyStrip (lower t) = lower t)
    (hl3 : ∀ t, fold_punct t = t → fold_punct (lower t) = lower t)
    (s : List Char) :
    norm_key nfc lower (norm_key nfc lower s) = norm_key nfc lower s := by
  have hnfc_s : nfc (pyStrip (nfc s)) = pyStrip (nfc s) := hn2 (nfc s) (hn1 s)
  have hnfc_u : nfc (fold_punct (pyStrip (nfc s))) = fold_punct (pyStrip (nfc s)) :=
    hn3 _ hnfc_s
  have hnfc_t : nfc (lower (fold_punct (pyStrip (nfc s)))) =
      lower (fold_punct (pyStrip (nfc s))) := hn4 _ hnfc_u
  have hstrip_u : pyStrip (fold_punct (pyStrip (nfc s))) =
      fold_punct (pyStrip (nfc s)) := pyStrip_fold_punct _
  have hstrip_t : pyStrip (lower (fold_punct (pyStrip (nfc s)))) =
      lower (fold_punct (pyStrip (nfc s))) := hl2 _ hstrip_u
  have hfold_u : fold_punct (fold_punct (pyStrip (nfc s))) =
      fold_punct (pyStrip (nfc s)) := fold_punct_idem _
  have hfold_t : fold_punct (lower (fold_punct (pyStrip (nfc s)))) =
      lower (fold_punct (pyStrip (nfc s))) := hl3 _ hfold_u
  show lower (fold_punct (pyStrip (nfc (lower (fold_punct (pyStrip (nfc s))))))) =
    lower (fold_punct (pyStrip (nfc s)))
  rw [hnfc_t, hstrip_t, hfold_t, hl1]

/-- Witness for C9 at the identity instantiations of the two library
calls (both trivially satisfy every hypothesis) and a concrete string. -/
theorem norm_key_idempotent_witness :
    norm_key id id (norm_key id id (" The  FROG!  ".data)) =
      norm_key id id (" The  FROG!  ".data) :=
  norm_key_idempotent id id (fun _ => rfl) (fun _ _ => rfl) (fun _ _ => rfl)
    (fun _ _ => rfl) (fun _ => rfl) (fun _ h => h) (fun _ h => h)
    (" The  FROG!  ".data)

/-!
Claims C1 and C10: correctness of the vote extractor.
-/

theorem drop_append_length {α : Type} (l₁ : List α) :
    ∀ (l₂ : List α) (k : Nat), (l₁ ++ l₂).drop (l₁.length + k) = l₂.drop k := by
  induction l₁ with
  | nil => intro l₂ k; simp
  | cons c rest ih =>
    intro l₂ k
    rw [List.cons_append, List.length_cons]
    have harith : rest.length + 1 + k = (rest.length + k) + 1 := by omega
    rw [harith, List.drop_succ_cons, ih]

theorem takeWhile_append_of_all {p : Char → Bool} : ∀ (ws z : List Char),
    (∀ c ∈ ws, p c = true) →
    (match z with | [] => True | c :: _ => p c = false) →
    (ws ++ z).takeWhile p = ws := by
  intro ws
  induction ws with
  | nil =>
    intro z _ hz
    cases z with
    | nil => rfl
    | cons c zs =>
      simp only [List.nil_append, List.takeWhile_cons]
      simp [hz]
  | cons w ws' ih =>
    intro z hall hz
    rw [List.cons_append, List.takeWhile_cons]
    have hw : p w = true := hall w (List.mem_cons_self w ws')
    simp only [hw, if_true, ite_true]
    rw [ih z (fun c hc => hall c (List.mem_cons_of_mem w hc)) hz]


theorem drop_takeWhile_length (p : Char → Bool) (l : List Char) :
    l.drop (l.takeWhile p).length = l.dropWhile p := by
  induction l with
  | nil => rfl
  | cons c rest ih =>
    by_cases hc : p c
    · simp [List.takeWhile_cons, List.dropWhile_cons, hc, ih]
    · simp [List.takeWhile_cons, List.dropWhile_cons, hc]

theorem tailMatch_eq (l : List Char) :
    tailMatch l =
      (match l.dropWhile pyIsSpace with
      | '(' :: r1 =>
        if (r1.takeWhile isDigitC).isEmpty then none
        else
          match r1.drop (r1.takeWhile isDigitC).length with
          | ')' :: rest =>
            (match rest with
            | [] => some (digitsToNat (r1.takeWhile isDigitC),
                (l.takeWhile pyIsSpace).length + 1 + (r1.takeWhile isDigitC).length + 1)
            | c2 :: _ =>
              if pyIsSpace c2 then
                some (digitsToNat (r1.takeWhile isDigitC),
                  (l.takeWhile pyIsSpace).length + 1 + (r1.takeWhile isDigitC).length + 1)
              else none)
          | _ => none
      | _ => none) := by
  simp only [tailMatch]
  rw [drop_takeWhile_length]

theorem tailMatch_sound_assemble (l r1 rest : List Char)
    (heq : l.dropWhile pyIsSpace = '(' :: r1)
    (heq2 : r1.drop (r1.takeWhile isDigitC).length = ')' :: rest) :
    l = l.takeWhile pyIsSpace ++ '(' :: (r1.takeWhile isDigitC ++ ')' :: rest) ∧
    l.drop ((l.takeWhile pyIsSpace).length + 1 + (r1.takeWhile isDigitC).length + 1) =
      rest := by
  have hdw2 : r1.dropWhile isDigitC = ')' :: rest := by
    rw [← drop_takeWhile_length isDigitC r1]
    exact heq2
  have hr1 : r1 = r1.takeWhile isDigitC ++ ')' :: rest := by
    conv_lhs => rw [← List.takeWhile_append_dropWhile (p := isDigitC) (l := r1)]
    rw [hdw2]
  have hsplit : l = l.takeWhile pyIsSpace ++
      '(' :: (r1.takeWhile isDigitC ++ ')' :: rest) := by
    conv_lhs => rw [← List.takeWhile_append_dropWhile (p := pyIsSpace) (l := l)]
    rw [heq, ← hr1]
  refine ⟨hsplit, ?_⟩
  have hgen : ∀ (tw ds : List Char),
      (tw ++ '(' :: (ds ++ ')' :: rest)).drop (tw.length + 1 + ds.length + 1) = rest := by
    intro tw ds
    have harith : tw.length + 1 + ds.length + 1 = tw.length + (1 + (ds.length + 1)) := by
      omega
    rw [harith, drop_append_length]
    have h2 : 1 + (ds.length + 1) = (ds.length + 1) + 1 := by omega
    rw [h2, List.drop_succ_cons, drop_append_length ds (')' :: rest) 1,
      List.drop_succ_cons, List.drop_zero]
  have hfin := hgen (l.takeWhile pyIsSpace) (r1.takeWhile isDigitC)
  rw [← hsplit] at hfin
  exact hfin

theorem tailMatch_sound (l : List Char) (pts n : Nat)
    (h : tailMatch l = some (pts, n)) :
    ∃ ws ds rest, l = ws ++ '(' :: (ds ++ ')' :: rest) ∧
      (∀ c ∈ ws, pyIsSpace c = true) ∧ ds ≠ [] ∧ (∀ c ∈ ds, isDigitC c = true) ∧
      (rest = [] ∨ ∃ c2 rs, rest = c2 :: rs ∧ pyIsSpace c2 = true) ∧
      pts = digitsToNat ds ∧ l.drop n = rest := by
  rw [tailMatch_eq] at h
  split at h
  · rename_i r1 heq
    split at h
    · exact absurd h (by simp)
    · rename_i hemp
      split at h
      · rename_i rest heq2
        have hds_ne : r1.takeWhile isDigitC ≠ [] := by
          intro hh
          rw [hh] at hemp
          exact hemp rfl
        obtain ⟨hsplit, hdropn⟩ := tailMatch_sound_assemble l r1 rest heq heq2
        cases rest with
        | nil =>
          simp only [Option.some.injEq, Prod.mk.injEq] at h
          obtain ⟨hp, hn⟩ := h
          refine ⟨l.takeWhile pyIsSpace, r1.takeWhile isDigitC, [], hsplit,
            fun c hc => List.mem_takeWhile_imp hc, hds_ne,
            fun c hc => List.mem_takeWhile_imp hc, Or.inl rfl, hp.symm, ?_⟩
          rw [← hn]
          exact hdropn
        | cons c2 tl =>
          by_cases hc2 : pyIsSpace c2
          · simp only [hc2, if_true, ite_true, Option.some.injEq, Prod.mk.injEq] at h
            obtain ⟨hp, hn⟩ := h
            refine ⟨l.takeWhile pyIsSpace, r1.takeWhile isDigitC, c2 :: tl, hsplit,
              fun c hc => List.mem_takeWhile_imp hc, hds_ne,
              fun c hc => List.mem_takeWhile_imp hc, Or.inr ⟨c2, tl, rfl, hc2⟩,
              hp.symm, ?_⟩
            rw [← hn]
            exact hdropn
          · simp [hc2] at h
      · exact absurd h (by simp)
  · exact absurd h (by simp)

theorem matchHere_sound (l : List Char) :
    ∀ acc t p rem, matchHere acc l = some (t, p, rem) →
      ∃ mid ws ds, t = acc ++ mid ∧ mid ≠ [] ∧ '\n' ∉ mid ∧
        l = mid ++ (ws ++ '(' :: (ds ++ ')' :: rem)) ∧
        (∀ c ∈ ws, pyIsSpace c = true) ∧ ds ≠ [] ∧ (∀ c ∈ ds, isDigitC c = true) ∧
        (rem = [] ∨ ∃ c2 rs, rem = c2 :: rs ∧ pyIsSpace c2 = true) ∧
        p = digitsToNat ds := by
  induction l with
  | nil => intro acc t p rem h; simp [matchHere] at h
  | cons c rest ih =>
    intro acc t p rem h
    by_cases hc : c = '\n'
    · simp [matchHere, hc] at h
    · simp only [matchHere, hc, if_false, ite_false] at h
      cases htm : tailMatch rest with
      | some pc =>
        obtain ⟨pts, consumed⟩ := pc
        rw [htm] at h
        simp only [Option.some.injEq, Prod.mk.injEq] at h
        obtain ⟨ht, hp, hrem⟩ := h
        obtain ⟨ws, ds, rest', hsplit, hws, hds, hdig, hrestc, hpts, hdrop⟩ :=
          tailMatch_sound rest pts consumed htm
        have hrem' : rem = rest' := by rw [← hrem, hdrop]
        subst hrem'
        refine ⟨[c], ws, ds, ht.symm, by simp,
          by intro hmem; rw [List.mem_singleton] at hmem; exact hc hmem.symm,
          ?_, hws, hds, hdig, hrestc, hp.symm.trans hpts⟩
        rw [List.singleton_append, hsplit]
      | none =>
        rw [htm] at h
        obtain ⟨mid', ws, ds, ht, hmid, hnl, hl2, hws, hds, hdig, hrestc, hp⟩ :=
          ih (acc ++ [c]) t p rem h
        refine ⟨c :: mid', ws, ds, ?_, by simp, ?_, ?_, hws, hds, hdig, hrestc, hp⟩
        · rw [ht, List.append_assoc, List.singleton_append]
        · intro hmem
          rcases List.mem_cons.mp hmem with hmem | hmem
          · exact hc hmem.symm
          · exact hnl hmem
        · rw [List.cons_append, ← hl2]

/-- Soundness relation for the extractor: a pair list is realized by a
text when the text decomposes, left to right without overlap, into one
well-formed `title \s* ( digits )` occurrence per pair — each closing
parenthesis followed by whitespace or end-of-text, each title non-empty
and free of newlines, each points value the base-10 reading of its digit
run — with arbitrary non-matching gaps before each occurrence. -/
inductive RealizesRaw : List Char → List (List Char × Nat) → Prop where
  | nil : ∀ l, RealizesRaw l []
  | cons : ∀ (pre title ws ds rest : List Char) (ps : List (List Char × Nat)),
      title ≠ [] → '\n' ∉ title →
      (∀ c ∈ ws, pyIsSpace c = true) →
      ds ≠ [] → (∀ c ∈ ds, isDigitC c = true) →
      (rest = [] ∨ ∃ c2 rs, rest = c2 :: rs ∧ pyIsSpace c2 = true) →
      RealizesRaw rest ps →
      RealizesRaw (pre ++ (title ++ (ws ++ '(' :: (ds ++ ')' :: rest))))
        ((title, digitsToNat ds) :: ps)

theorem realizesRaw_cons_pre (c : Char) (l : List Char) (ps : List (List Char × Nat))
    (h : RealizesRaw l ps) : RealizesRaw (c :: l) ps := by
  cases h with
  | nil => exact RealizesRaw.nil _
  | cons pre title ws ds rest ps h1 h2 h3 h4 h5 h6 h7 =>
    have hshape : c :: (pre ++ (title ++ (ws ++ '(' :: (ds ++ ')' :: rest)))) =
        (c :: pre) ++ (title ++ (ws ++ '(' :: (ds ++ ')' :: rest))) := by
      simp
    rw [hshape]
    exact RealizesRaw.cons (c :: pre) title ws ds rest ps h1 h2 h3 h4 h5 h6 h7

theorem scanPairsF_realizes : ∀ (n : Nat) (l : List Char), l.length ≤ n →
    RealizesRaw l (scanPairsF n l) := by
  intro n
  induction n with
  | zero => intro l _; exact RealizesRaw.nil l
  | succ n ih =>
    intro l hl
    cases l with
    | nil => exact RealizesRaw.nil _
    | cons c rest =>
      cases hm : matchHere [] (c :: rest) with
      | none =>
        have hs : scanPairsF (n + 1) (c :: rest) = scanPairsF n rest := by
          simp [scanPairsF, hm]
        rw [hs]
        have hlen : rest.length ≤ n := by
          have := hl
          simp only [List.length_cons] at this
          omega
        exact realizesRaw_cons_pre c rest _ (ih rest hlen)
      | some tpr =>
        obtain ⟨t, p, rem⟩ := tpr
        have hs : scanPairsF (n + 1) (c :: rest) = (t, p) :: scanPairsF n rem := by
          simp [scanPairsF, hm]
        rw [hs]
        obtain ⟨mid, ws, ds, ht, hmid, hnl, hl2, hws, hds, hdig, hrestc, hp⟩ :=
          matchHere_sound (c :: rest) [] t p rem hm
        have hmidlen : 0 < mid.length := List.length_pos.mpr hmid
        have hlenrem : rem.length ≤ n := by
          have hlc : (c :: rest).length = mid.length + (ws.length + (1 +
              (ds.length + (1 + rem.length)))) := by
            rw [hl2]
            simp [List.length_append]
            omega
          simp only [List.length_cons] at hlc hl
          omega
        have hreal : RealizesRaw rem (scanPairsF n rem) := ih rem hlenrem
        have hcons := RealizesRaw.cons [] mid ws ds rem (scanPairsF n rem)
          hmid hnl hws hds hdig hrestc hreal
        rw [List.nil_append] at hcons
        rw [hl2]
        have ht' : t = mid := by simpa using ht
        rw [ht', hp]
        exact hcons

/-- Every pair the extractor returns is realized by the text, in order
and without overlap. -/
theorem scanPairs_realizes (l : List Char) : RealizesRaw l (scanPairs l) :=
  scanPairsF_realizes l.length l le_rfl

theorem dropWhile_append_of_all {p : Char → Bool} : ∀ (ws z : List Char),
    (∀ c ∈ ws, p c = true) →
    (match z with | [] => True | c :: _ => p c = false) →
    (ws ++ z).dropWhile p = z := by
  intro ws
  induction ws with
  | nil =>
    intro z _ hz
    cases z with
    | nil => rfl
    | cons c zs =>
      simp only [List.nil_append, List.dropWhile_cons]
      simp [hz]
  | cons w ws' ih =>
    intro z hall hz
    rw [List.cons_append, List.dropWhile_cons]
    have hw : p w = true := hall w (List.mem_cons_self w ws')
    simp only [hw, if_true, ite_true]
    exact ih z (fun c hc => hall c (List.mem_cons_of_mem w hc)) hz

theorem tailMatch_complete (ws ds rest : List Char)
    (hws : ∀ c ∈ ws, pyIsSpace c = true) (hds : ds ≠ [])
    (hdig : ∀ c ∈ ds, isDigitC c = true)
    (hrest : rest = [] ∨ ∃ c2 rs, rest = c2 :: rs ∧ pyIsSpace c2 = true) :
    tailMatch (ws ++ '(' :: (ds ++ ')' :: rest)) ≠ none := by
  rw [tailMatch_eq]
  have hdw : (ws ++ '(' :: (ds ++ ')' :: rest)).dropWhile pyIsSpace =
      '(' :: (ds ++ ')' :: rest) :=
    dropWhile_append_of_all ws _ hws (show pyIsSpace '(' = false by decide)
  rw [hdw]
  split
  · rename_i r1 heq
    have hr1 : r1 = ds ++ ')' :: rest := by
      have := List.cons.injEq .. ▸ heq
      exact this.2.symm
    subst hr1
    have htw : (ds ++ ')' :: rest).takeWhile isDigitC = ds :=
      takeWhile_append_of_all ds _ hdig (show isDigitC ')' = false by decide)
    rw [htw]
    have hemp : ds.isEmpty = false := by
      cases ds with
      | nil => exact absurd rfl hds
      | cons d dss => rfl
    rw [hemp]
    simp only [Bool.false_eq_true, if_false, ite_false]
    have hdr : (ds ++ ')' :: rest).drop ds.length = ')' :: rest := by
      have hda := drop_append_length ds (')' :: rest) 0
      rw [Nat.add_zero, List.drop_zero] at hda
      exact hda
    rw [hdr]
    rcases hrest with hrest | ⟨c2, rs, hrest, hc2⟩
    · subst hrest
      simp
    · subst hrest
      simp [hc2]
  · rename_i hne
    exact (hne _ rfl).elim

theorem matchHere_complete : ∀ (t : List Char), t ≠ [] → '\n' ∉ t →
    ∀ (acc tail0 : List Char), tailMatch tail0 ≠ none →
      matchHere acc (t ++ tail0) ≠ none := by
  intro t
  induction t with
  | nil => intro h; exact absurd rfl h
  | cons x t' ih =>
    intro _ hnl acc tail0 htm
    have hx : ¬ x = '\n' := fun h => hnl (h ▸ List.mem_cons_self x t')
    cases t' with
    | nil =>
      rw [List.cons_append, List.nil_append]
      cases htt : tailMatch tail0 with
      | none => exact absurd htt htm
      | some v =>
        obtain ⟨pts, consumed⟩ := v
        simp [matchHere, hx, htt]
    | cons y t'' =>
      rw [List.cons_append]
      cases htt : tailMatch (y :: (t'' ++ tail0)) with
      | some v =>
        obtain ⟨pts, consumed⟩ := v
        simp [matchHere, hx, htt]
      | none =>
        have hstep : matchHere acc (x :: ((y :: t'') ++ tail0)) =
            matchHere (acc ++ [x]) ((y :: t'') ++ tail0) := by
          rw [List.cons_append]
          simp only [matchHere, hx, if_false, ite_false, htt]
        rw [hstep]
        have hnl' : '\n' ∉ y :: t'' := fun hm => hnl (List.mem_cons_of_mem x hm)
        exact ih (by simp) hnl' (acc ++ [x]) tail0 htm

theorem scanPairsF_nonempty : ∀ (n : Nat) (pre rest : List Char),
    (pre ++ rest).length ≤ n → matchHere [] rest ≠ none →
    scanPairsF n (pre ++ rest) ≠ [] := by
  intro n
  induction n with
  | zero =>
    intro pre rest hlen hm
    have hnil : pre ++ rest = [] := List.length_eq_zero.mp (Nat.le_zero.mp hlen)
    have hrest : rest = [] := (List.append_eq_nil.mp hnil).2
    rw [hrest] at hm
    exact absurd rfl hm
  | succ n ih =>
    intro pre rest hlen hm
    cases pre with
    | nil =>
      rw [List.nil_append] at hlen ⊢
      cases rest with
      | nil => exact absurd rfl hm
      | cons c rs =>
        cases hmm : matchHere [] (c :: rs) with
        | none => exact absurd hmm hm
        | some tpr =>
          obtain ⟨t, p, rem⟩ := tpr
          simp [scanPairsF, hmm]
    | cons c pre' =>
      rw [List.cons_append]
      cases hmm : matchHere [] (c :: (pre' ++ rest)) with
      | some tpr =>
        obtain ⟨t, p, rem⟩ := tpr
        simp [scanPairsF, hmm]
      | none =>
        have hstep : scanPairsF (n + 1) (c :: (pre' ++ rest)) =
            scanPairsF n (pre' ++ rest) := by
          simp [scanPairsF, hmm]
        rw [hstep]
        have hlen' : (pre' ++ rest).length ≤ n := by
          rw [List.cons_append, List.length_cons] at hlen
          omega
        exact ih pre' rest hlen' hm

theorem matchHere_no_newline (l acc : List Char) (t : List Char) (p : Nat)
    (rem : List Char) (hacc : '\n' ∉ acc) (h : matchHere acc l = some (t, p, rem)) :
    '\n' ∉ t := by
  obtain ⟨mid, ws, ds, ht, -, hnl, -, -, -, -, -, -⟩ := matchHere_sound l acc t p rem h
  rw [ht]
  intro hmem
  rcases List.mem_append.mp hmem with hmem | hmem
  · exact hacc hmem
  · exact hnl hmem

theorem scanPairsF_no_newline : ∀ (n : Nat) (l : List Char)
    (tp : List Char × Nat), tp ∈ scanPairsF n l → '\n' ∉ tp.1 := by
  intro n
  induction n with
  | zero => intro l tp htp; simp [scanPairsF] at htp
  | succ n ih =>
    intro l tp htp
    cases l with
    | nil => simp [scanPairsF] at htp
    | cons c rest =>
      cases hm : matchHere [] (c :: rest) with
      | none =>
        rw [show scanPairsF (n + 1) (c :: rest) = scanPairsF n rest by
          simp [scanPairsF, hm]] at htp
        exact ih rest tp htp
      | some tpr =>
        obtain ⟨t, p, rem⟩ := tpr
        rw [show scanPairsF (n + 1) (c :: rest) = (t, p) :: scanPairsF n rem by
          simp [scanPairsF, hm]] at htp
        rcases List.mem_cons.mp htp with htp | htp
        · rw [htp]
          exact matchHere_no_newline (c :: rest) [] t p rem (by simp) hm
        · exact ih rem tp htp

/-- A well-formed `Title (k)` occurrence begins at the very start of the
text `s`: a non-empty newline-free title, optional whitespace, an opening
parenthesis, a non-empty digit run, and a closing parenthesis followed by
whitespace or end-of-text. -/
def OccursAt (s : List Char) : Prop :=
  ∃ t ws ds rest, s = t ++ (ws ++ '(' :: (ds ++ ')' :: rest)) ∧ t ≠ [] ∧ '\n' ∉ t ∧
    (∀ c ∈ ws, pyIsSpace c = true) ∧ ds ≠ [] ∧ (∀ c ∈ ds, isDigitC c = true) ∧
    (rest = [] ∨ ∃ c2 rs, rest = c2 :: rs ∧ pyIsSpace c2 = true)

/-- Some well-formed occurrence begins somewhere in the text `s`. -/
def HasOccurrence (s : List Char) : Prop :=
  ∃ pre suf, s = pre ++ suf ∧ OccursAt suf

theorem occursAt_matchHere_ne (s : List Char) (h : OccursAt s) :
    matchHere [] s ≠ none := by
  obtain ⟨t, ws, ds, rest, heq, ht, hnl, hws, hds, hdig, hrest⟩ := h
  rw [heq]
  exact matchHere_complete t ht hnl [] _
    (tailMatch_complete ws ds rest hws hds hdig hrest)

theorem not_occursAt_of_matchHere_none (s : List Char)
    (h : matchHere [] s = none) : ¬ OccursAt s :=
  fun hocc => occursAt_matchHere_ne s hocc h

theorem not_hasOccurrence_nil : ¬ HasOccurrence ([] : List Char) := by
  rintro ⟨pre, suf, heq, t, ws, ds, rest, hsuf, ht, -, -, -, -, -⟩
  have hsufnil : suf = [] := (List.append_eq_nil.mp heq.symm).2
  rw [hsufnil] at hsuf
  exact ht (List.append_eq_nil.mp hsuf.symm).1

/-- Exactness relation for the extractor: like `RealizesRaw`, but the
gaps are constrained — no well-formed occurrence begins at any position
inside a gap preceding a match, and no well-formed occurrence remains in
the text left over after the last match. A text is thereby related
exactly to the left-to-right sequence of non-overlapping occurrences:
nothing is skipped and nothing is invented, so an extractor that stopped
after the first match (or skipped any occurrence) could not satisfy it. -/
inductive RealizesExact : List Char → List (List Char × Nat) → Prop where
  | nil : ∀ l, ¬ HasOccurrence l → RealizesExact l []
  | cons : ∀ (pre title ws ds rest : List Char) (ps : List (List Char × Nat)),
      title ≠ [] → '\n' ∉ title →
      (∀ c ∈ ws, pyIsSpace c = true) →
      ds ≠ [] → (∀ c ∈ ds, isDigitC c = true) →
      (rest = [] ∨ ∃ c2 rs, rest = c2 :: rs ∧ pyIsSpace c2 = true) →
      (∀ pre1 pre2, pre = pre1 ++ pre2 → pre2 ≠ [] →
        ¬ OccursAt (pre2 ++ (title ++ (ws ++ '(' :: (ds ++ ')' :: rest))))) →
      RealizesExact rest ps →
      RealizesExact (pre ++ (title ++ (ws ++ '(' :: (ds ++ ')' :: rest))))
        ((title, digitsToNat ds) :: ps)

theorem hasOccurrence_cons (c : Char) (l : List Char)
    (h : HasOccurrence (c :: l)) : OccursAt (c :: l) ∨ HasOccurrence l := by
  obtain ⟨pre, suf, heq, hocc⟩ := h
  cases pre with
  | nil =>
    left
    rw [List.nil_append] at heq
    rw [heq]
    exact hocc
  | cons p pre' =>
    right
    rw [List.cons_append] at heq
    injection heq with hcp hls
    exact ⟨pre', suf, hls, hocc⟩

theorem realizesExact_cons_pre (c : Char) (l : List Char) (ps : List (List Char × Nat))
    (hnone : ¬ OccursAt (c :: l)) (h : RealizesExact l ps) :
    RealizesExact (c :: l) ps := by
  cases h with
  | nil _ hno =>
    refine RealizesExact.nil _ ?_
    intro hh
    rcases hasOccurrence_cons c l hh with hh | hh
    · exact hnone hh
    · exact hno hh
  | cons pre title ws ds rest ps h1 h2 h3 h4 h5 h6 hgap h7 =>
    have hshape : c :: (pre ++ (title ++ (ws ++ '(' :: (ds ++ ')' :: rest)))) =
        (c :: pre) ++ (title ++ (ws ++ '(' :: (ds ++ ')' :: rest))) := by
      simp
    rw [hshape]
    refine RealizesExact.cons (c :: pre) title ws ds rest ps h1 h2 h3 h4 h5 h6 ?_ h7
    intro pre1 pre2 hpp hne
    cases pre1 with
    | nil =>
      rw [List.nil_append] at hpp
      rw [← hpp]
      rw [List.cons_append]
      exact hnone
    | cons p pre1' =>
      rw [List.cons_append] at hpp
      injection hpp with hcp hpp'
      exact hgap pre1' pre2 hpp' hne

theorem scanPairsF_exact : ∀ (n : Nat) (l : List Char), l.length ≤ n →
    RealizesExact l (scanPairsF n l) := by
  intro n
  induction n with
  | zero =>
    intro l hl
    have hnil : l = [] := List.length_eq_zero.mp (Nat.le_zero.mp hl)
    subst hnil
    exact RealizesExact.nil [] not_hasOccurrence_nil
  | succ n ih =>
    intro l hl
    cases l with
    | nil => exact RealizesExact.nil [] not_hasOccurrence_nil
    | cons c rest =>
      cases hm : matchHere [] (c :: rest) with
      | none =>
        have hs : scanPairsF (n + 1) (c :: rest) = scanPairsF n rest := by
          simp [scanPairsF, hm]
        rw [hs]
        have hlen : rest.length ≤ n := by
          have := hl
          simp only [List.length_cons] at this
          omega
        exact realizesExact_cons_pre c rest _
          (not_occursAt_of_matchHere_none _ hm) (ih rest hlen)
      | some tpr =>
        obtain ⟨t, p, rem⟩ := tpr
        have hs : scanPairsF (n + 1) (c :: rest) = (t, p) :: scanPairsF n rem := by
          simp [scanPairsF, hm]
        rw [hs]
        obtain ⟨mid, ws, ds, ht, hmid, hnl, hl2, hws, hds, hdig, hrestc, hp⟩ :=
          matchHere_sound (c :: rest) [] t p rem hm
        have hmidlen : 0 < mid.length := List.length_pos.mpr hmid
        have hlenrem : rem.length ≤ n := by
          have hlc : (c :: rest).length = mid.length + (ws.length + (1 +
              (ds.length + (1 + rem.length)))) := by
            rw [hl2]
            simp [List.length_append]
            omega
          simp only [List.length_cons] at hlc hl
          omega
        have hreal : RealizesExact rem (scanPairsF n rem) := ih rem hlenrem
        have hcons := RealizesExact.cons [] mid ws ds rem (scanPairsF n rem)
          hmid hnl hws hds hdig hrestc
          (fun pre1 pre2 hpp hne => absurd (List.append_eq_nil.mp hpp.symm).2 hne)
          hreal
        rw [List.nil_append] at hcons
        rw [hl2]
        have ht' : t = mid := by simpa using ht
        rw [ht', hp]
        exact hcons

/-- The scan realizes every text exactly: the returned pairs are the
left-to-right non-overlapping well-formed occurrences, none skipped. -/
theorem scanPairs_exact (l : List Char) : RealizesExact l (scanPairs l) :=
  scanPairsF_exact l.length l le_rfl

theorem scanPairs_empty_iff (text : List Char) :
    scanPairs text = [] ↔ ¬ HasOccurrence text := by
  constructor
  · intro h
    have hx := scanPairs_exact text
    rw [h] at hx
    cases hx with
    | nil _ hno => exact hno
  · intro hno
    by_contra hne
    cases hsc : scanPairs text with
    | nil => exact hne hsc
    | cons tp ps =>
      have hr := scanPairs_realizes text
      rw [hsc] at hr
      cases hr with
      | cons pre title ws ds rest ps' h1 h2 h3 h4 h5 h6 h7 =>
        exact hno ⟨pre, title ++ (ws ++ '(' :: (ds ++ ')' :: rest)), rfl,
          title, ws, ds, rest, rfl, h1, h2, h3, h4, h5, h6⟩

/-- C1: `find_vote_pairs` returns exactly the left-to-right,
non-overlapping, well-formed `Title (k)` occurrences of the text — each
closing parenthesis followed by whitespace or end-of-text — with the
trailing parenthesized integer read as the points and the title
normalized. Soundness: the returned list is the raw scan with titles
normalized, and every scanned pair arises from such an occurrence, in
order and without overlap (`RealizesRaw`). Completeness: the scan
realizes the text *exactly* (`RealizesExact`) — no well-formed
occurrence begins inside any gap the scan skipped, and no well-formed
occurrence remains after the last returned pair — so no occurrence is
missed and a first-match-only extractor is ruled out; in particular the
scan is empty iff the text contains no well-formed occurrence, so any
text containing one yields at least one pair. The parenthetical-title
example holds: `extract("Foo (Bar) (2)") = [("Foo (Bar)", 2)]`, not
`[("Foo", _), ("Bar", 2)]`. -/
theorem vote_extractor_correct :
    (∀ (nfc : List Char → List Char) (text : List Char),
      find_vote_pairs nfc text =
        (scanPairs text).map (fun tp => (normalize_unicode nfc tp.1, tp.2))) ∧
    (∀ text : List Char, RealizesRaw text (scanPairs text)) ∧
    (∀ text : List Char, RealizesExact text (scanPairs text)) ∧
    (∀ text : List Char, scanPairs text = [] ↔ ¬ HasOccurrence text) ∧
    find_vote_pairs id ("Foo (Bar) (2)".data) = [("Foo (Bar)".data, 2)] ∧
    (∀ (nfc : List Char → List Char) (pre t ws ds rest : List Char),
      t ≠ [] → '\n' ∉ t → (∀ c ∈ ws, pyIsSpace c = true) → ds ≠ [] →
      (∀ c ∈ ds, isDigitC c = true) →
      (rest = [] ∨ ∃ c2 rs, rest = c2 :: rs ∧ pyIsSpace c2 = true) →
      find_vote_pairs nfc (pre ++ (t ++ (ws ++ '(' :: (ds ++ ')' :: rest)))) ≠ []) := by
  refine ⟨fun _ _ => rfl, scanPairs_realizes, scanPairs_exact, scanPairs_empty_iff,
    by decide, ?_⟩
  intro nfc pre t ws ds rest ht hnl hws hds hdig hrest
  have htail : tailMatch (ws ++ '(' :: (ds ++ ')' :: rest)) ≠ none :=
    tailMatch_complete ws ds rest hws hds hdig hrest
  have hmh : matchHere [] (t ++ (ws ++ '(' :: (ds ++ ')' :: rest))) ≠ none :=
    matchHere_complete t ht hnl [] _ htail
  have hscan : scanPairsF (pre ++ (t ++ (ws ++ '(' :: (ds ++ ')' :: rest)))).length
      (pre ++ (t ++ (ws ++ '(' :: (ds ++ ')' :: rest)))) ≠ [] :=
    scanPairsF_nonempty _ pre _ le_rfl hmh
  intro hempty
  exact hscan (List.map_eq_nil_iff.mp hempty)

/-- Witness for C1's completeness conjunct at a concrete occurrence. -/
theorem vote_extractor_correct_witness :
    find_vote_pairs id
      (("xx ".data) ++ (("Hi".data) ++ ([' '] ++ '(' :: (['3'] ++ ')' :: [])))) ≠ [] :=
  vote_extractor_correct.2.2.2.2.2 id ("xx ".data) ("Hi".data) [' '] ['3'] []
    (by decide) (by decide) (by decide) (by decide) (by decide) (Or.inl rfl)

/-- C10 counterexample: the occurrence `"Foo\n(2)"` is split across two
lines — the newline sits between the title and the parenthesized points,
where the pattern's `\s*` may match — yet it IS extracted as a single
pair, with the title `"Foo"` taken from *before* the line break. -/
theorem newline_split_occurrence_extracted :
    find_vote_pairs id ("Foo\n(2)".data) = [("Foo".data, 2)] ∧
    '\n' ∈ "Foo\n(2)".data :=
  ⟨by decide, by decide⟩

/-- C10 amended: no title the extractor returns contains a newline — the
`.+?` title capture cannot cross a line break (and NFC composition plus
stripping cannot introduce one) — so when the title text itself is split
across lines only the portion after the last break can form the title;
however a newline *between* the title and the parenthesized number is
matched by the pattern's `\s*`, so such an occurrence is still extracted
as a single pair. -/
theorem extracted_titles_no_newline (nfc : List Char → List Char)
    (hnfc : ∀ t : List Char, '\n' ∉ t → '\n' ∉ nfc t)
    (text : List Char) (tp : List Char × Nat)
    (htp : tp ∈ find_vote_pairs nfc text) : '\n' ∉ tp.1 := by
  obtain ⟨raw, hraw, heq⟩ := List.mem_map.mp htp
  have h1 : '\n' ∉ raw.1 := scanPairsF_no_newline text.length text raw hraw
  have h2 : '\n' ∉ nfc raw.1 := hnfc raw.1 h1
  rw [← heq]
  intro hmem
  exact h2 (mem_pyStrip (nfc raw.1) '\n' (by simpa using hmem))

/-- Witness for C10 amended: the single extracted title of
`"A\nB (2)"` is `"B"` — the portion after the line break — and is
newline-free. -/
theorem extracted_titles_no_newline_witness :
    '\n' ∉ (("B".data : List Char)) :=
  extracted_titles_no_newline id (fun _ h => h) ("A\nB (2)".data) ("B".data, 2)
    (by decide)
